import Mathlib

/-!
Verification of the intrusive doubly linked list family of `os-lists.cpp`
(µOS++ scheduler / clock queues): `static_double_list_links::unlink`,
`static_double_list::insert_after`, the ordered `link` insertions of the
ready / waiting / clock-timestamp lists, `unlink_head`, `resume_one`,
`check_timestamp`, and the hierarchy / terminated lists.

Memory is a map from node ids to link records with optional (`nullptr`-able)
`prev` / `next` pointers.  Thread and timestamp payloads live in side maps of
a `Kernel` record, indexed by the id of the intrusive node that the payload's
owner embeds.  Loops of the C code (the backward insertion scans, the
`check_timestamp` drain, `resume_all`) take explicit fuel.
-/

set_option maxRecDepth 100000

namespace MicroOs

/-- A list node: `prev`/`next` pointers; `none` models `nullptr`.
Mirrors `static_double_list_links` (os-lists.cpp). -/
structure Node where
  prev : Option Nat
  next : Option Nat
deriving DecidableEq, Repr

/-- Memory: node id → link fields. -/
def Heap : Type := Nat → Node

/-- Store to the `prev` field of node `x`. -/
def setPrev (m : Heap) (x : Nat) (v : Option Nat) : Heap :=
  fun y => if y = x then { prev := v, next := (m y).next } else m y

/-- Store to the `next` field of node `x`. -/
def setNext (m : Heap) (x : Nat) (v : Option Nat) : Heap :=
  fun y => if y = x then { prev := (m y).prev, next := v } else m y

/-- `static_double_list_links::unlink` (os-lists.cpp:60-84): if `next` is
null the node is already removed and nothing happens; otherwise the two
neighbours are spliced together (`prev->next = next; next->prev = prev`)
and both pointers of the node are nullified.  The case `next` present but
`prev` null would dereference a null pointer in C; it is unreachable for
nodes of a well formed list and modelled as leaving memory unchanged. -/
def static_double_list_links.unlink (m : Heap) (x : Nat) : Heap :=
  match (m x).next with
  | none => m
  | some nx =>
    match (m x).prev with
    | none => m
    | some px =>
      let m1 := setNext m px (some nx)
      let m2 := setPrev m1 nx (some px)
      let m3 := setPrev m2 x none
      setNext m3 x none

/-- `static_double_list::clear` (os-lists.cpp:108-113): self link the header. -/
def static_double_list.clear (m : Heap) (hd : Nat) : Heap :=
  setPrev (setNext m hd (some hd)) hd (some hd)

/-- `static_double_list::insert_after` (os-lists.cpp:115-134): splice `node`
between `after` and `after->next`, in the statement order of the source
(`node.prev = after; node.next = after->next; after->next->prev = &node;
after->next = &node`).  If `after->next` is null the C code would
dereference it (the debug assertion `after->next != nullptr` fails); that
branch leaves the partial writes that precede the dereference. -/
def static_double_list.insert_after (m : Heap) (node after : Nat) : Heap :=
  let m1 := setPrev m node (some after)
  let anext := (m1 after).next
  let m2 := setNext m1 node anext
  match anext with
  | none => m2
  | some an =>
    let m3 := setPrev m2 an (some node)
    setNext m3 after (some node)

/-- The debug assertions at the top of `static_double_list::insert_after`
(os-lists.cpp:123-125): the node must be detached and the anchor must lie in
an initialised list. -/
def insert_after_assert_ok (m : Heap) (node after : Nat) : Bool :=
  decide ((m node).prev = none) && decide ((m node).next = none)
    && decide ((m after).next ≠ none)

/-- Modelled from the spec: `empty()` — the inline accessor lives in the
header `os-lists.h`, which is not part of the sources; spec §4.2: "true iff
`header.next` is absent or equals `&header`". -/
def list_empty (m : Heap) (hd : Nat) : Bool :=
  decide ((m hd).next = none) || decide ((m hd).next = some hd)

/-- Modelled from the spec: `head()` returns `header.next` (accessor from
the missing header `os-lists.h`, spec §4.2). -/
def list_head (m : Heap) (hd : Nat) : Option Nat := (m hd).next

/-- Modelled from the spec: `tail()` returns `header.prev` (accessor from
the missing header `os-lists.h`, spec §4.2). -/
def list_tail (m : Heap) (hd : Nat) : Option Nat := (m hd).prev

/-- `thread::state` (spec §3): scheduler states. -/
inductive TState
  | ready
  | running
  | waiting
  | terminated
  | destroyed
deriving DecidableEq, Repr

/-- The dynamic type of a timestamp node: `timeout_thread_node` or
`timer_node` (with its period, for the spec-modelled periodic ISR). -/
inductive NodeKind
  | timeoutNode
  | timerNode (period : Nat)
deriving DecidableEq, Repr

/-- The kernel state the list code touches: the link memory plus the payload
fields read or written through the intrusive nodes — `thread_.prio_`,
`thread_.sched_state_`, `timestamp`, the node's dynamic type — each indexed
by the id of the embedded node, and a log of the threads resumed so far. -/
structure Kernel where
  mem : Heap
  prio : Nat → Nat
  sstate : Nat → TState
  stamp : Nat → Nat
  kind : Nat → NodeKind
  resumed : List Nat

/-- Modelled from the spec: `thread::sched_prio()` is an accessor (missing
header `os.h`) returning the thread's current scheduling priority; here it
coincides with the cached `prio_` field, priority inheritance being out of
scope. -/
def sched_prio (k : Kernel) (t : Nat) : Nat := k.prio t

/-- Modelled from the spec: `thread::resume()` belongs to the thread module,
which is external to this core; modelled as recording the resumption. -/
def thread_resume (k : Kernel) (t : Nat) : Kernel :=
  { k with resumed := k.resumed ++ [t] }

/-- The backward scan shared by the ordered `link` insertions
(os-lists.cpp:222-226, 333-337, 522-526):
`while (cond (after)) after = after->prev;` with explicit fuel.  A null
`prev` would be dereferenced by the C code; it is unreachable on a well
formed list and modelled by staying put. -/
def walkBack (m : Heap) (cond : Nat → Bool) : Nat → Nat → Nat
  | after, 0 => after
  | after, fuel+1 =>
    if cond after then walkBack m cond ((m after).prev.getD after) fuel else after

/-- `top_threads_list::link` (os-lists.cpp:164-176): lazily promote a
zero-initialised header, then append the thread's `child_links_` node at the
tail. -/
def top_threads_list.link (k : Kernel) (hd : Nat) (child_links : Nat) : Kernel :=
  let m0 := if (k.mem hd).prev = none then static_double_list.clear k.mem hd else k.mem
  { k with mem := static_double_list.insert_after m0 child_links ((list_tail m0 hd).getD hd) }

/-- `thread_children_list::link` (os-lists.cpp:180-186): append the thread's
`child_links_` node at the tail (constructed list, no lazy promotion). -/
def thread_children_list.link (k : Kernel) (hd : Nat) (child_links : Nat) : Kernel :=
  { k with mem := static_double_list.insert_after k.mem child_links ((list_tail k.mem hd).getD hd) }

/-- `ready_threads_list::link` (os-lists.cpp:190-237): lazily promote a
zero-initialised header; insert by the cached priority `thread_.prio_` —
at the tail when empty or `prio <= tail`, at the head when `prio > head`,
otherwise after the node found by the backward scan — and force the
thread's scheduler state to `ready`. -/
def ready_threads_list.link (fuel : Nat) (k : Kernel) (hd n : Nat) : Kernel :=
  let m0 := if (k.mem hd).prev = none then static_double_list.clear k.mem hd else k.mem
  let prio := k.prio n
  let tl := (list_tail m0 hd).getD hd
  let after :=
    if list_empty m0 hd || decide (prio ≤ k.prio tl) then tl
    else if decide (prio > k.prio ((list_head m0 hd).getD hd)) then hd
    else walkBack m0 (fun x => decide (prio > k.prio x)) tl fuel
  { k with mem := static_double_list.insert_after m0 n after,
           sstate := Function.update k.sstate n TState.ready }

/-- `ready_threads_list::unlink_head` (os-lists.cpp:243-261): capture the
head's thread, unlink the head node, force the state to `running` and
return the thread. -/
def ready_threads_list.unlink_head (k : Kernel) (hd : Nat) : Kernel × Nat :=
  let t := (list_head k.mem hd).getD hd
  let k1 := { k with mem := static_double_list_links.unlink k.mem t }
  ({ k1 with sstate := Function.update k1.sstate t TState.running }, t)

/-- `waiting_threads_list::link` (os-lists.cpp:307-346): insert by
`sched_prio()` — tail when empty or `prio <= tail`, head when
`prio > head`, otherwise after the node found by the backward scan.  No
lazy header promotion: the wait list header is constructed. -/
def waiting_threads_list.link (fuel : Nat) (k : Kernel) (hd n : Nat) : Kernel :=
  let prio := sched_prio k n
  let tl := (list_tail k.mem hd).getD hd
  let after :=
    if list_empty k.mem hd || decide (prio ≤ sched_prio k tl) then tl
    else if decide (prio > sched_prio k ((list_head k.mem hd).getD hd)) then hd
    else walkBack k.mem (fun x => decide (prio > sched_prio k x)) tl fuel
  { k with mem := static_double_list.insert_after k.mem n after }

/-- `waiting_threads_list::resume_one` (os-lists.cpp:353-384): return if
empty; otherwise capture the head thread, unlink the head node and, when
the captured thread's state is not `destroyed`, resume it. -/
def waiting_threads_list.resume_one (k : Kernel) (hd : Nat) : Kernel :=
  if list_empty k.mem hd then k
  else
    let t := (list_head k.mem hd).getD hd
    let k1 := { k with mem := static_double_list_links.unlink k.mem t }
    if k1.sstate t ≠ TState.destroyed then thread_resume k1 t else k1

/-- `waiting_threads_list::resume_all` (os-lists.cpp:386-393):
`while (!empty()) resume_one();` with explicit fuel. -/
def waiting_threads_list.resume_all (hd : Nat) : Nat → Kernel → Kernel
  | 0, k => k
  | fuel+1, k =>
    if list_empty k.mem hd then k
    else waiting_threads_list.resume_all hd fuel (waiting_threads_list.resume_one k hd)

/-- `clock_timestamps_list::link` (os-lists.cpp:496-545): insert by
timestamp — tail when empty or `timestamp >= tail`, head when
`timestamp < head`, otherwise after the node found by the backward scan. -/
def clock_timestamps_list.link (fuel : Nat) (k : Kernel) (hd n : Nat) : Kernel :=
  let timestamp := k.stamp n
  let tl := (list_tail k.mem hd).getD hd
  let after :=
    if list_empty k.mem hd || decide (timestamp ≥ k.stamp tl) then tl
    else if decide (timestamp < k.stamp ((list_head k.mem hd).getD hd)) then hd
    else walkBack k.mem (fun x => decide (timestamp < k.stamp x)) tl fuel
  { k with mem := static_double_list.insert_after k.mem n after }

/-- `timeout_thread_node::action` (os-lists.cpp:433-444): unlink the node,
then resume the thread unless its state is `destroyed`. -/
def timeout_thread_node.action (k : Kernel) (n : Nat) : Kernel :=
  let k1 := { k with mem := static_double_list_links.unlink k.mem n }
  if k1.sstate n ≠ TState.destroyed then thread_resume k1 n else k1

/-- `timer_node::action` (os-lists.cpp:471-476): unlink the node, then call
`timer::_interrupt_service_routine`.  Modelled from the spec: the ISR of a
periodic timer (the timer module is external to these sources) re-enqueues
the node at `now + period`, `now` being the timestamp that just fired. -/
def timer_node.action (linkFuel : Nat) (k : Kernel) (hd n : Nat) (period : Nat) : Kernel :=
  let k1 := { k with mem := static_double_list_links.unlink k.mem n }
  let k2 := { k1 with stamp := Function.update k1.stamp n (k1.stamp n + period) }
  clock_timestamps_list.link linkFuel k2 hd n

/-- Virtual dispatch of `timestamp_node::action` on the node's dynamic type. -/
def node_action (linkFuel : Nat) (k : Kernel) (hd n : Nat) : Kernel :=
  match k.kind n with
  | NodeKind.timeoutNode => timeout_thread_node.action k n
  | NodeKind.timerNode period => timer_node.action linkFuel k hd n period

/-- The `for (;;)` loop of `check_timestamp` (os-lists.cpp:565-586), with
explicit fuel; the returned list logs, in firing order, each node on which
`action()` is invoked together with its timestamp at fire time.  The head
is re-read from memory on every iteration. -/
def check_timestamp_go (linkFuel : Nat) (hd : Nat) (now : Nat) :
    Nat → Kernel → List (Nat × Nat) → Kernel × List (Nat × Nat)
  | 0, k, acc => (k, acc.reverse)
  | fuel+1, k, acc =>
    if list_empty k.mem hd then (k, acc.reverse)
    else
      let h0 := (list_head k.mem hd).getD hd
      let head_ts := k.stamp h0
      if now ≥ head_ts then
        check_timestamp_go linkFuel hd now fuel (node_action linkFuel k hd h0)
          ((h0, head_ts) :: acc)
      else (k, acc.reverse)

/-- `clock_timestamps_list::check_timestamp` (os-lists.cpp:554-587): return
at once while the header is still zero-initialised, otherwise drain every
node whose timestamp is `<= now`, re-reading the head after each action. -/
def clock_timestamps_list.check_timestamp (loopFuel linkFuel : Nat) (k : Kernel) (hd : Nat)
    (now : Nat) : Kernel × List (Nat × Nat) :=
  if (k.mem hd).next = none then (k, [])
  else check_timestamp_go linkFuel hd now loopFuel k []

/-- `terminated_threads_list::link` (os-lists.cpp:591-609): lazily promote a
zero-initialised header, then append the node at the tail. -/
def terminated_threads_list.link (k : Kernel) (hd n : Nat) : Kernel :=
  let m0 := if (k.mem hd).prev = none then static_double_list.clear k.mem hd else k.mem
  { k with mem := static_double_list.insert_after m0 n ((list_tail m0 hd).getD hd) }

/-! ### Well-formedness: the circular doubly linked list invariant -/

/-- Mirror of a heap: swap the roles of `prev` and `next`. -/
def mirror (m : Heap) : Heap := fun x => { prev := (m x).next, next := (m x).prev }

/-- Backward (`prev`) links along consecutive pairs of a list. -/
def prevChainB (m : Heap) : List Nat → Bool
  | p :: q :: l => decide ((m q).prev = some p) && prevChainB m (q :: l)
  | _ => true

/-- A sequence of `waiting_threads_list::link` calls, first to last. -/
def waiting_link_all (fuel hd : Nat) : List Nat → Kernel → Kernel
  | [], k => k
  | n :: rest, k => waiting_link_all fuel hd rest (waiting_threads_list.link fuel k hd n)

/-- A sequence of `clock_timestamps_list::link` calls, first to last. -/
def clock_link_all (fuel hd : Nat) : List Nat → Kernel → Kernel
  | [], k => k
  | n :: rest, k => clock_link_all fuel hd rest (clock_timestamps_list.link fuel k hd n)


/-- One link of the cycle: `a.next` points to `b` and `b.prev` back to `a`. -/
def okPair (m : Heap) (a b : Nat) : Bool :=
  decide ((m a).next = some b) && decide ((m b).prev = some a)

/-- All consecutive pairs of `l` are properly linked. -/
def linksOkB (m : Heap) : List Nat → Bool
  | a :: b :: l => okPair m a b && linksOkB m (b :: l)
  | _ => true

/-- The list invariant: the nodes `xs` (head to tail), preceded by the
header, form a circular doubly linked structure, all nodes distinct. -/
def Wf (m : Heap) (hd : Nat) (xs : List Nat) : Prop :=
  (hd :: xs).Nodup ∧ linksOkB m (hd :: (xs ++ [hd])) = true

instance (m : Heap) (hd : Nat) (xs : List Nat) : Decidable (Wf m hd xs) :=
  inferInstanceAs (Decidable ((hd :: xs).Nodup ∧ linksOkB m (hd :: (xs ++ [hd])) = true))

/-- Observer: the node ids on the list, head to tail, by following `next`
from the header (fuel-bounded; used to state concrete scenarios). -/
def toListAux (m : Heap) (hd : Nat) : Nat → Nat → List Nat
  | _, 0 => []
  | cur, fuel+1 => if cur = hd then [] else cur :: toListAux m hd ((m cur).next.getD hd) fuel

/-- Observer: the list contents, head to tail. -/
def toList (m : Heap) (hd fuel : Nat) : List Nat :=
  match (m hd).next with
  | none => []
  | some c => toListAux m hd c fuel

/-- Observer: follow `next` pointers `j` times (`none` on a null pointer). -/
def iterNext (m : Heap) : Nat → Nat → Option Nat
  | 0, x => some x
  | j+1, x =>
    match (m x).next with
    | none => none
    | some y => iterNext m j y

/-- Observer: follow `prev` pointers `j` times (`none` on a null pointer). -/
def iterPrev (m : Heap) : Nat → Nat → Option Nat
  | 0, x => some x
  | j+1, x =>
    match (m x).prev with
    | none => none
    | some y => iterPrev m j y

/-- The states reachable from a freshly initialised list by well formed
`insert_after` / `unlink` calls: inserting a fresh detached node after the
header or after a list node (the insertions every `link` performs), and
unlinking a list node.  The index list records the expected contents. -/
inductive Reach (hd : Nat) : Heap → List Nat → Prop
  | init (m : Heap) : Reach hd (static_double_list.clear m hd) []
  | insHead {m : Heap} {xs : List Nat} (n : Nat) : Reach hd m xs →
      n ∉ hd :: xs → Reach hd (static_double_list.insert_after m n hd) (n :: xs)
  | insMid {m : Heap} (u v : List Nat) (a n : Nat) : Reach hd m (u ++ a :: v) →
      n ∉ hd :: (u ++ a :: v) →
      Reach hd (static_double_list.insert_after m n a) (u ++ a :: n :: v)
  | del {m : Heap} (u v : List Nat) (x : Nat) : Reach hd m (u ++ x :: v) →
      Reach hd (static_double_list_links.unlink m x) (u ++ v)

/-- `static_double_list::insert_after` with every pointer dereference made
explicit: `none` when the C code would dereference a null `after->next`
(the assert `after->next != nullptr`). -/
def insert_afterChecked (m : Heap) (node after : Nat) : Option Heap :=
  let m1 := setPrev m node (some after)
  match (m1 after).next with
  | none => none
  | some an =>
    let m2 := setNext m1 node (some an)
    let m3 := setPrev m2 an (some node)
    some (setNext m3 after (some node))

/-- The backward scan with every pointer dereference made explicit: `none`
when the C loop would dereference a null `after->prev`, or when the fuel
cannot certify termination. -/
def walkBackChecked (m : Heap) (cond : Nat → Bool) : Nat → Nat → Option Nat
  | _, 0 => none
  | after, fuel+1 =>
    if cond after then
      match (m after).prev with
      | none => none
      | some q => walkBackChecked m cond q fuel
    else some after

/-- `waiting_threads_list::link` with every pointer dereference made
explicit, in the order the C code performs them: `tail()` is dereferenced by
`insert_after` in every branch, `head()` only in the non-empty branches, and
the backward scan dereferences `after->prev`.  `none` signals that the C
code would dereference a null pointer. -/
def waiting_threads_list.linkChecked (fuel : Nat) (k : Kernel) (hd n : Nat) :
    Option Kernel :=
  let prio := sched_prio k n
  match (k.mem hd).prev with
  | none => none
  | some tl =>
    if list_empty k.mem hd || decide (prio ≤ sched_prio k tl) then
      (insert_afterChecked k.mem n tl).map (fun m => { k with mem := m })
    else
      match (k.mem hd).next with
      | none => none
      | some h0 =>
        if decide (prio > sched_prio k h0) then
          (insert_afterChecked k.mem n hd).map (fun m => { k with mem := m })
        else
          match walkBackChecked k.mem (fun x => decide (prio > sched_prio k x)) tl fuel with
          | none => none
          | some after => (insert_afterChecked k.mem n after).map (fun m => { k with mem := m })

/-! ### Concrete scenario states (spec §8) -/

/-- Base state: every node detached, default payloads. -/
def k0 : Kernel :=
  { mem := fun _ => { prev := none, next := none }, prio := fun _ => 0,
    sstate := fun _ => TState.waiting, stamp := fun _ => 0,
    kind := fun _ => NodeKind.timeoutNode, resumed := [] }

/-- S1: a constructed wait list at header 0 and six waiters, node `i`
carrying priority `[5, 9, 5, 7, 9, 1][i-1]`. -/
def kS1 : Kernel :=
  { k0 with mem := static_double_list.clear k0.mem 0,
            prio := fun n => [0, 5, 9, 5, 7, 9, 1].getD n 0 }

/-- S2: threads A=1 (prio 3), B=2 (prio 7), C=3 (prio 7), D=4 (prio 5). -/
def kS2 : Kernel := { k0 with prio := fun n => [0, 3, 7, 7, 5].getD n 0 }

/-- S2: the ready list after linking A, B, C, D in that order. -/
def kS2r : Kernel :=
  ready_threads_list.link 10 (ready_threads_list.link 10 (ready_threads_list.link 10
    (ready_threads_list.link 10 kS2 0 1) 0 2) 0 3) 0 4

def kS2u1 : Kernel × Nat := ready_threads_list.unlink_head kS2r 0
def kS2u2 : Kernel × Nat := ready_threads_list.unlink_head kS2u1.1 0
def kS2u3 : Kernel × Nat := ready_threads_list.unlink_head kS2u2.1 0
def kS2u4 : Kernel × Nat := ready_threads_list.unlink_head kS2u3.1 0

/-- S3: a constructed clock queue at header 0, timeout nodes 1..4 with
timestamps `[100, 50, 75, 50]`. -/
def kS3 : Kernel :=
  { k0 with mem := static_double_list.clear k0.mem 0,
            stamp := fun n => [0, 100, 50, 75, 50].getD n 0 }

def kS3q : Kernel := clock_link_all 10 0 [1, 2, 3, 4] kS3

def rS3a : Kernel × List (Nat × Nat) :=
  clock_timestamps_list.check_timestamp 10 10 kS3q 0 60

def rS3b : Kernel × List (Nat × Nat) :=
  clock_timestamps_list.check_timestamp 10 10 rS3a.1 0 200

/-- S4: a periodic timer node 1 at timestamp 100 with period 50 on a
constructed clock queue at header 0. -/
def kS4 : Kernel :=
  { k0 with mem := static_double_list.clear k0.mem 0,
            stamp := fun n => [0, 100].getD n 0,
            kind := fun _ => NodeKind.timerNode 50 }

def kS4q : Kernel := clock_timestamps_list.link 10 kS4 0 1

def rS4 : Kernel × List (Nat × Nat) :=
  clock_timestamps_list.check_timestamp 10 10 kS4q 0 250

/-- S5: a constructed wait list at header 0 whose only waiter, node 1, has
scheduler state `destroyed`. -/
def kS5 : Kernel :=
  { k0 with mem := static_double_list.clear k0.mem 0,
            sstate := fun _ => TState.destroyed }

def kS5q : Kernel := waiting_threads_list.link 10 kS5 0 1

/-- A one-node list reached from a fresh header: the header 0 self-linked,
then node 1 inserted after it. -/
def mC8 : Heap :=
  static_double_list.insert_after (static_double_list.clear k0.mem 0) 1 0

/-! ### Chain lemmas -/

theorem linksOkB_split (m : Heap) (l₁ : List Nat) (x : Nat) (l₂ : List Nat) :
    linksOkB m (l₁ ++ x :: l₂) = (linksOkB m (l₁ ++ [x]) && linksOkB m (x :: l₂)) := by
  induction l₁ with
  | nil => simp [linksOkB]
  | cons a l₁ ih =>
    cases l₁ with
    | nil => simp [linksOkB, Bool.and_assoc]
    | cons b l₁ =>
      simp only [List.cons_append, List.append_eq, linksOkB] at ih ⊢
      rw [ih, Bool.and_assoc]

/-- `linksOkB` reads only the `next` of the non-last and the `prev` of the
non-first elements. -/
theorem linksOkB_congr (m m' : Heap) (l : List Nat)
    (hnext : ∀ y ∈ l.dropLast, (m' y).next = (m y).next)
    (hprev : ∀ y ∈ l.tail, (m' y).prev = (m y).prev) :
    linksOkB m' l = linksOkB m l := by
  induction l with
  | nil => rfl
  | cons a l ih =>
    cases l with
    | nil => rfl
    | cons b l =>
      simp only [linksOkB, okPair]
      rw [hnext a (by simp [List.dropLast]), hprev b (by simp)]
      rw [ih]
      · intro y hy
        exact hnext y (by simp [List.dropLast_cons₂, List.mem_cons] at hy ⊢; tauto)
      · intro y hy
        exact hprev y (by simp at hy ⊢; tauto)

theorem linksOkB_pair (m : Heap) (l₁ : List Nat) (a b : Nat) (l₂ : List Nat)
    (h : linksOkB m (l₁ ++ a :: b :: l₂) = true) :
    (m a).next = some b ∧ (m b).prev = some a := by
  rw [linksOkB_split m l₁ a (b :: l₂), Bool.and_eq_true] at h
  have h2 := h.2
  simp only [linksOkB, okPair, Bool.and_eq_true, decide_eq_true_eq] at h2
  exact ⟨h2.1.1, h2.1.2⟩


theorem okPair_mirror (m : Heap) (a b : Nat) :
    okPair (mirror m) a b = okPair m b a := by
  simp [okPair, mirror, Bool.and_comm]

theorem linksOkB_mirror (m : Heap) (l : List Nat) :
    linksOkB (mirror m) l.reverse = linksOkB m l := by
  induction l with
  | nil => rfl
  | cons a l ih =>
    cases l with
    | nil => rfl
    | cons b l =>
      have h1 : (a :: b :: l).reverse = l.reverse ++ b :: [a] := by simp
      rw [h1, linksOkB_split (mirror m) l.reverse b [a]]
      have h2 : l.reverse ++ [b] = (b :: l).reverse := by simp
      rw [h2, ih]
      simp only [linksOkB, okPair_mirror, Bool.and_true]
      rw [Bool.and_comm]

theorem linksOkB_tail {m : Heap} {x : Nat} {l : List Nat}
    (h : linksOkB m (x :: l) = true) : linksOkB m l = true := by
  cases l with
  | nil => rfl
  | cons b l =>
    simp only [linksOkB, Bool.and_eq_true] at h
    exact h.2

/-! ### Pointwise effect of the two memory operations -/

theorem insert_after_eval (m : Heap) (n a suc : Nat) (hna : n ≠ a)
    (hsuc : (m a).next = some suc) (hsn : suc ≠ n) (y : Nat) :
    static_double_list.insert_after m n a y =
      if y = n then { prev := some a, next := some suc }
      else if y = suc then { prev := some n, next := if y = a then some n else (m y).next }
      else if y = a then { prev := (m y).prev, next := some n }
      else m y := by
  have han : ¬ (a = n) := fun h => hna h.symm
  have hns2 : ¬ (n = suc) := fun h => hsn h.symm
  simp only [static_double_list.insert_after, setPrev, setNext, han, if_false, ite_false]
  rw [hsuc]
  simp only []
  split_ifs <;> simp_all [setPrev, setNext]

theorem unlink_eval (m : Heap) (x pre suc : Nat)
    (hnext : (m x).next = some suc) (hprev : (m x).prev = some pre)
    (hpx : pre ≠ x) (hsx : suc ≠ x) (y : Nat) :
    static_double_list_links.unlink m x y =
      if y = x then { prev := none, next := none }
      else if y = suc then { prev := some pre, next := if y = pre then some suc else (m y).next }
      else if y = pre then { prev := (m y).prev, next := some suc }
      else m y := by
  have hxp : ¬ (x = pre) := fun h => hpx h.symm
  have hxs : ¬ (x = suc) := fun h => hsx h.symm
  simp only [static_double_list_links.unlink, setPrev, setNext]
  rw [hnext, hprev]
  simp only []
  split_ifs <;> simp_all [setPrev, setNext]

/-- A node already detached (null `next`) is left alone by `unlink`. -/
theorem unlink_detached (m : Heap) (x : Nat) (h : (m x).next = none) :
    static_double_list_links.unlink m x = m := by
  simp only [static_double_list_links.unlink]
  rw [h]

theorem linksOkB_insert_after (m : Heap) (P : List Nat) (a n suc : Nat) (S : List Nat)
    (hok : linksOkB m (P ++ a :: suc :: S) = true)
    (hnP : n ∉ P) (hna : n ≠ a) (hns : n ≠ suc) (hnS : n ∉ S)
    (haP : a ∉ P) (hsa : suc ≠ a) (haS : a ∉ (suc :: S).dropLast)
    (hsP : suc ∉ P.tail) (hsS : suc ∉ S) :
    linksOkB (static_double_list.insert_after m n a) (P ++ a :: n :: suc :: S) = true := by
  have hpair := linksOkB_pair m P a suc S hok
  have hsuc : (m a).next = some suc := hpair.1
  have heval := insert_after_eval m n a suc hna hsuc (fun h => hns h.symm)
  rw [linksOkB_split m P a (suc :: S), Bool.and_eq_true] at hok
  have hok1 := hok.1
  have hok2 := hok.2
  rw [linksOkB_split _ P a (n :: suc :: S), Bool.and_eq_true]
  constructor
  · have hc : linksOkB (static_double_list.insert_after m n a) (P ++ [a])
        = linksOkB m (P ++ [a]) := by
      apply linksOkB_congr
      · intro y hy
        rw [List.dropLast_concat] at hy
        rw [heval y]
        split_ifs <;> simp_all
      · intro y hy
        rw [heval y]
        cases P with
        | nil => simp at hy
        | cons p P =>
          simp only [List.cons_append, List.tail_cons, List.mem_append,
            List.mem_singleton] at hy
          simp only [List.tail_cons] at hsP
          rcases hy with hy | hy
          · split_ifs <;> simp_all [List.mem_cons]
          · subst hy
            split_ifs <;> simp_all
    rw [hc]
    exact hok1
  · simp only [linksOkB, Bool.and_eq_true, okPair, decide_eq_true_eq]
    have hsa2 : ¬ (a = suc) := fun h => hsa h.symm
    refine ⟨⟨?_, ?_⟩, ⟨?_, ?_⟩, ?_⟩
    · rw [heval a]; simp [Ne.symm hna, hsa2]  -- (m' a).next = some n
    · rw [heval n]; simp            -- (m' n).prev = some a
    · rw [heval n]; simp            -- (m' n).next = some suc
    · rw [heval suc]; simp [Ne.symm hns, hsa]  -- (m' suc).prev = some n
    · have hc2 : linksOkB (static_double_list.insert_after m n a) (suc :: S)
          = linksOkB m (suc :: S) := by
        apply linksOkB_congr
        · intro y hy
          have hy2 : y ∈ suc :: S := List.dropLast_subset _ hy
          rw [heval y]
          split_ifs <;> simp_all
        · intro y hy
          simp only [List.tail_cons] at hy
          rw [heval y]
          split_ifs <;> simp_all
      rw [hc2]
      exact linksOkB_tail hok2

theorem linksOkB_unlink (m : Heap) (P : List Nat) (pre x suc : Nat) (S : List Nat)
    (hok : linksOkB m (P ++ pre :: x :: suc :: S) = true)
    (hxP : x ∉ P) (hxp : x ≠ pre) (hxs : x ≠ suc) (hxS : x ∉ S)
    (hpP : pre ∉ P) (hpS : pre ∉ (suc :: S).dropLast)
    (hsPt : suc ∉ P.tail) (hsp : suc ≠ pre) (hsS : suc ∉ S) :
    linksOkB (static_double_list_links.unlink m x) (P ++ pre :: suc :: S) = true := by
  have hpair1 := linksOkB_pair m P pre x (suc :: S) (by
    rw [show P ++ pre :: x :: suc :: S = P ++ pre :: x :: (suc :: S) from rfl] at hok
    exact hok)
  have hpair2 := linksOkB_pair m (P ++ [pre]) x suc S (by
    rw [show (P ++ [pre]) ++ x :: suc :: S = P ++ pre :: x :: suc :: S by simp]
    exact hok)
  have hnext : (m x).next = some suc := hpair2.1
  have hprev : (m x).prev = some pre := hpair1.2
  have heval := unlink_eval m x pre suc hnext hprev (fun h => hxp h.symm) (fun h => hxs h.symm)
  rw [linksOkB_split m P pre (x :: suc :: S), Bool.and_eq_true] at hok
  have hok1 := hok.1
  have hok2 := hok.2
  rw [linksOkB_split _ P pre (suc :: S), Bool.and_eq_true]
  constructor
  · have hc : linksOkB (static_double_list_links.unlink m x) (P ++ [pre])
        = linksOkB m (P ++ [pre]) := by
      apply linksOkB_congr
      · intro y hy
        rw [List.dropLast_concat] at hy
        rw [heval y]
        split_ifs <;> simp_all
      · intro y hy
        rw [heval y]
        cases P with
        | nil => simp at hy
        | cons p P =>
          simp only [List.cons_append, List.tail_cons, List.mem_append,
            List.mem_singleton] at hy
          simp only [List.tail_cons] at hsPt
          rcases hy with hy | hy
          · split_ifs <;> simp_all [List.mem_cons]
          · subst hy
            split_ifs <;> simp_all
    rw [hc]
    exact hok1
  · simp only [linksOkB, Bool.and_eq_true, okPair, decide_eq_true_eq]
    refine ⟨⟨?_, ?_⟩, ?_⟩
    · rw [heval pre]; simp [Ne.symm hxp, Ne.symm hsp]
    · rw [heval suc]; simp [Ne.symm hxs]
    · have hc2 : linksOkB (static_double_list_links.unlink m x) (suc :: S)
          = linksOkB m (suc :: S) := by
        apply linksOkB_congr
        · intro y hy
          have hy2 : y ∈ suc :: S := List.dropLast_subset _ hy
          rw [heval y]
          split_ifs <;> simp_all
        · intro y hy
          simp only [List.tail_cons] at hy
          rw [heval y]
          split_ifs <;> simp_all
      rw [hc2]
      exact linksOkB_tail (linksOkB_tail hok2)

theorem nodup_insert_middle {α : Type} {l₁ l₂ : List α} {n : α}
    (h : (l₁ ++ l₂).Nodup) (hn : n ∉ l₁ ++ l₂) : (l₁ ++ n :: l₂).Nodup :=
  (List.Perm.nodup_iff List.perm_middle).2 (List.nodup_cons.2 ⟨hn, h⟩)

theorem Wf_mirror {m : Heap} {hd : Nat} {xs : List Nat} (hwf : Wf m hd xs) :
    Wf (mirror m) hd xs.reverse := by
  obtain ⟨hnd, hok⟩ := hwf
  constructor
  · simp only [List.nodup_cons, List.mem_reverse, List.nodup_reverse]
    simpa [List.nodup_cons] using hnd
  · have h : (hd :: (xs ++ [hd])).reverse = hd :: (xs.reverse ++ [hd]) := by simp
    rw [← h, linksOkB_mirror]
    exact hok

theorem headD_reverse {α : Type} (xs : List α) (d : α) :
    xs.reverse.headD d = xs.getLastD d := by
  induction xs using List.reverseRecOn with
  | nil => rfl
  | append_singleton l a ih => simp [List.getLastD_concat]

theorem Wf_next_hd {m : Heap} {hd : Nat} {xs : List Nat} (hwf : Wf m hd xs) :
    (m hd).next = some (xs.headD hd) := by
  obtain ⟨hnd, hok⟩ := hwf
  cases xs with
  | nil =>
    simp only [linksOkB, okPair, Bool.and_eq_true, decide_eq_true_eq] at hok
    exact hok.1.1
  | cons x xs =>
    simp only [List.cons_append, linksOkB, okPair, Bool.and_eq_true, decide_eq_true_eq] at hok
    exact hok.1.1

theorem Wf_prev_hd {m : Heap} {hd : Nat} {xs : List Nat} (hwf : Wf m hd xs) :
    (m hd).prev = some (xs.getLastD hd) := by
  have h := Wf_next_hd (Wf_mirror hwf)
  rw [headD_reverse] at h
  exact h

theorem Wf_list_empty {m : Heap} {hd : Nat} {xs : List Nat} (hwf : Wf m hd xs) :
    list_empty m hd = xs.isEmpty := by
  have hnext := Wf_next_hd hwf
  cases xs with
  | nil => simp [list_empty, hnext]
  | cons x xs =>
    have hx : x ≠ hd := by
      have := hwf.1
      simp only [List.nodup_cons, List.mem_cons] at this
      exact fun h => this.1 (Or.inl h.symm)
    simp [list_empty, hnext, hx]

theorem Wf_insert_head {m : Heap} {hd : Nat} {xs : List Nat} (n : Nat)
    (hwf : Wf m hd xs) (hn : n ∉ hd :: xs) :
    Wf (static_double_list.insert_after m n hd) hd (n :: xs) := by
  obtain ⟨hnd, hok⟩ := hwf
  simp only [List.mem_cons, not_or] at hn
  cases xs with
  | nil =>
    have hnext : (m hd).next = some hd := by
      simp only [linksOkB, okPair, Bool.and_eq_true, decide_eq_true_eq] at hok
      exact hok.1.1
    have heval := insert_after_eval m n hd hd (fun h => hn.1 h) hnext (fun h => hn.1 h.symm)
    have h1 : ¬ (hd = n) := fun h => hn.1 h.symm
    constructor
    · simp [List.nodup_cons, hn.1, h1]
    · simp only [List.nil_append, linksOkB, okPair, Bool.and_eq_true, decide_eq_true_eq,
        List.cons_append]
      rw [heval hd, heval n]
      simp [h1, hn.1]
  | cons x xs =>
    obtain ⟨hhd, hxxs, hnds⟩ : (hd ∉ x :: xs) ∧ (x ∉ xs) ∧ xs.Nodup := by
      simp only [List.nodup_cons] at hnd
      exact ⟨hnd.1, by simpa [List.nodup_cons] using hnd.2⟩
    have hhx : ¬ hd = x := by simp only [List.mem_cons, not_or] at hhd; exact hhd.1
    have hhxs : hd ∉ xs := by simp only [List.mem_cons, not_or] at hhd; exact hhd.2
    have hnx : ¬ n = x := fun h => hn.2 (by simp [h])
    have hnxs : n ∉ xs := fun h => hn.2 (by simp [h])
    refine ⟨?_, ?_⟩
    · have hmid : ([hd] ++ n :: (x :: xs)).Nodup :=
        nodup_insert_middle (by simpa using hnd) (by
          simp [List.mem_append, List.mem_cons, hn.1, hnx, hnxs])
      simpa using hmid
    · have hgoal := linksOkB_insert_after m [] hd n x (xs ++ [hd])
        (by simpa using hok) (by simp) hn.1 hnx
        (by simp [hnxs, hn.1])
        (by simp) (fun h => hhx h.symm)
        (by
          rw [show x :: (xs ++ [hd]) = (x :: xs) ++ [hd] by simp, List.dropLast_concat]
          simp [hhx, hhxs])
        (by simp)
        (by
          have hxh : ¬ x = hd := fun h => hhx h.symm
          simp [hxxs, hxh])
      simpa using hgoal

theorem Wf_insert_mid {m : Heap} {hd : Nat} {u v : List Nat} {a : Nat} (n : Nat)
    (hwf : Wf m hd (u ++ a :: v)) (hn : n ∉ hd :: (u ++ a :: v)) :
    Wf (static_double_list.insert_after m n a) hd (u ++ a :: n :: v) := by
  obtain ⟨hnd, hok⟩ := hwf
  have hnhd : n ≠ hd := fun h => hn (by simp [h])
  have hnu : n ∉ u := fun h => hn (by simp [h])
  have hna : n ≠ a := fun h => hn (by simp [h])
  have hnv : n ∉ v := fun h => hn (by simp [h])
  have hhd : hd ∉ u ++ a :: v := (List.nodup_cons.1 hnd).1
  have hhu : hd ∉ u := fun h => hhd (by simp [h])
  have hha : hd ≠ a := fun h => hhd (by simp [h])
  have hhv : hd ∉ v := fun h => hhd (by simp [h])
  have hndu : (u ++ a :: v).Nodup := (List.nodup_cons.1 hnd).2
  have hmid : (a :: (u ++ v)).Nodup := List.nodup_middle.1 hndu
  have hauv : a ∉ u ++ v := (List.nodup_cons.1 hmid).1
  have hau : a ∉ u := fun h => hauv (by simp [h])
  have hav : a ∉ v := fun h => hauv (by simp [h])
  have hdisj : List.Disjoint u (a :: v) := List.disjoint_of_nodup_append hndu
  refine ⟨?_, ?_⟩
  · have hmid2 : ((hd :: u ++ [a]) ++ n :: v).Nodup :=
      nodup_insert_middle (by simpa using hnd) (by simp [hnhd, hnu, hna, hnv])
    simpa using hmid2
  · cases v with
    | nil =>
      have hgoal := linksOkB_insert_after m (hd :: u) a n hd []
        (by simpa using hok)
        (by simp [hnhd, hnu])
        hna hnhd (by simp)
        (by
          have hah : ¬ a = hd := fun h => hha h.symm
          simp [hah, hau])
        hha (by simp) (by simpa using hhu) (by simp)
      simpa using hgoal
    | cons w v' =>
      have haw : a ≠ w := fun h => hav (by simp [h])
      have hwu : w ∉ u := fun h => hdisj h (by simp)
      have hwv : w ∉ v' := by
        have := (List.Nodup.of_append_right hndu)
        have := (List.nodup_cons.1 this).2
        exact (List.nodup_cons.1 this).1
      have hwhd : w ≠ hd := fun h => hhv (by simp [h])
      have hgoal := linksOkB_insert_after m (hd :: u) a n w (v' ++ [hd])
        (by simpa using hok)
        (by simp [hnhd, hnu])
        hna (fun h => hnv (by simp [h]))
        (by
          have h1 : n ∉ v' := fun h => hnv (by simp [h])
          simp [h1, hnhd])
        (by
          have hah : ¬ a = hd := fun h => hha h.symm
          simp [hah, hau])
        (fun h => haw h.symm)
        (by
          rw [show w :: (v' ++ [hd]) = (w :: v') ++ [hd] by simp, List.dropLast_concat]
          have h1 : a ∉ v' := fun h => hav (by simp [h])
          have h2 : ¬ a = w := haw
          simp [h1, h2])
        (by simpa using hwu)
        (by simp [hwv, hwhd])
      simpa using hgoal

theorem Wf_unlink {m : Heap} {hd : Nat} {u v : List Nat} {x : Nat}
    (hwf : Wf m hd (u ++ x :: v)) :
    Wf (static_double_list_links.unlink m x) hd (u ++ v) ∧
      static_double_list_links.unlink m x x = { prev := none, next := none } := by
  obtain ⟨hnd, hok⟩ := hwf
  have hhd : hd ∉ u ++ x :: v := (List.nodup_cons.1 hnd).1
  have hhu : hd ∉ u := fun h => hhd (by simp [h])
  have hhx : hd ≠ x := fun h => hhd (by simp [h])
  have hhv : hd ∉ v := fun h => hhd (by simp [h])
  have hndu : (u ++ x :: v).Nodup := (List.nodup_cons.1 hnd).2
  have hmid : (x :: (u ++ v)).Nodup := List.nodup_middle.1 hndu
  have hxuv : x ∉ u ++ v := (List.nodup_cons.1 hmid).1
  have hxu : x ∉ u := fun h => hxuv (by simp [h])
  have hxv : x ∉ v := fun h => hxuv (by simp [h])
  have hdisj : List.Disjoint u (x :: v) := List.disjoint_of_nodup_append hndu
  have hnodup2 : (hd :: (u ++ v)).Nodup := by
    refine List.nodup_cons.2 ⟨?_, (List.nodup_cons.1 hmid).2⟩
    simp [hhu, hhv]
  rcases List.eq_nil_or_concat u with rfl | ⟨u', p, rfl⟩
  · cases v with
    | nil =>
      have h1 := linksOkB_pair m [] hd x [hd] (by simpa using hok)
      have h2 := linksOkB_pair m [hd] x hd [] (by simpa using hok)
      have heval := unlink_eval m x hd hd h2.1 h1.2 hhx hhx
      refine ⟨⟨by simp, ?_⟩, by rw [heval x]; simp⟩
      simp only [List.nil_append, linksOkB, okPair, Bool.and_eq_true, decide_eq_true_eq]
      rw [heval hd]
      simp [hhx]
    | cons w v' =>
      have hwv : w ∉ v' := by
        have h3 := List.Nodup.of_append_right hndu
        have h4 := (List.nodup_cons.1 h3).2
        exact (List.nodup_cons.1 h4).1
      have hwhd : w ≠ hd := fun h => hhv (by simp [h])
      have hxw : x ≠ w := fun h => hxv (by simp [h])
      have hpair1 := linksOkB_pair m [] hd x (w :: (v' ++ [hd])) (by simpa using hok)
      have hpair2 := linksOkB_pair m [hd] x w (v' ++ [hd]) (by simpa using hok)
      have heval := unlink_eval m x hd w hpair2.1 hpair1.2 hhx (fun h => hxw h.symm)
      have hgoal := linksOkB_unlink m [] hd x w (v' ++ [hd])
        (by simpa using hok) (by simp) (fun h => hhx h.symm) hxw
        (by
          have h6 : x ∉ v' := fun h => hxv (by simp [h])
          have h7 : ¬ x = hd := fun h => hhx h.symm
          simp [h6, h7])
        (by simp)
        (by
          rw [show w :: (v' ++ [hd]) = (w :: v') ++ [hd] by simp, List.dropLast_concat]
          have h5 : hd ∉ v' := fun h => hhv (by simp [h])
          have h8 : ¬ hd = w := fun h => hwhd h.symm
          simp [h8, h5])
        (by simp) hwhd
        (by simp [hwv, hwhd])
      refine ⟨⟨by simpa using hnodup2, by simpa using hgoal⟩, by rw [heval x]; simp⟩
  · simp only [List.concat_eq_append] at hnd hok hhd hndu hmid hxuv hdisj hnodup2 hhu hxu ⊢
    have hpu' : p ∉ u' := by
      have h3 := List.Nodup.of_append_left hndu
      simpa using (List.nodup_cons.1 (List.nodup_middle.1 h3)).1
    have hphd : p ≠ hd := fun h => hhu (by simp [h])
    have hxp : x ≠ p := fun h => hxu (by simp [h])
    have hpxv : p ∉ x :: v := fun h => hdisj (by simp) h
    have hpv : p ∉ v := fun h => hpxv (by simp [h])
    have hhu' : hd ∉ u' := fun h => hhu (by simp [h])
    have hxu' : x ∉ u' := fun h => hxu (by simp [h])
    have hpair1 := linksOkB_pair m (hd :: u') p x (v ++ [hd]) (by simpa using hok)
    cases v with
    | nil =>
      have hpair2 := linksOkB_pair m ((hd :: u') ++ [p]) x hd [] (by simpa using hok)
      have heval := unlink_eval m x p hd hpair2.1 hpair1.2 (fun h => hxp h.symm) hhx
      have hgoal := linksOkB_unlink m (hd :: u') p x hd []
        (by simpa using hok)
        (by
          have hxh : ¬ x = hd := fun h => hhx h.symm
          simp [hxh, hxu'])
        hxp (fun h => hhx h.symm) (by simp)
        (by simp [fun h => hphd h, hpu'])
        (by simp) (by simpa using hhu') (fun h => hphd h.symm) (by simp)
      refine ⟨⟨by simpa using hnodup2, by simpa using hgoal⟩, by rw [heval x]; simp⟩
    | cons w v' =>
      have hwv : w ∉ v' := by
        have h3 := List.Nodup.of_append_right hndu
        have h4 := (List.nodup_cons.1 h3).2
        exact (List.nodup_cons.1 h4).1
      have hwhd : w ≠ hd := fun h => hhv (by simp [h])
      have hxw : x ≠ w := fun h => hxv (by simp [h])
      have hwp : w ≠ p := fun h => hpv (by simp [← h])
      have hwu' : w ∉ u' := fun h => @hdisj w (by simp [h]) (by simp)
      have hpair2 := linksOkB_pair m ((hd :: u') ++ [p]) x w (v' ++ [hd]) (by simpa using hok)
      have heval := unlink_eval m x p w hpair2.1 hpair1.2 (fun h => hxp h.symm) (fun h => hxw h.symm)
      have hgoal := linksOkB_unlink m (hd :: u') p x w (v' ++ [hd])
        (by simpa using hok)
        (by
          have hxh : ¬ x = hd := fun h => hhx h.symm
          simp [hxh, hxu'])
        hxp hxw
        (by
          have h6 : x ∉ v' := fun h => hxv (by simp [h])
          have h7 : ¬ x = hd := fun h => hhx h.symm
          simp [h6, h7])
        (by simp [fun h => hphd h, hpu'])
        (by
          rw [show w :: (v' ++ [hd]) = (w :: v') ++ [hd] by simp, List.dropLast_concat]
          have h5 : p ∉ v' := fun h => hpv (by simp [h])
          have h8 : ¬ p = w := fun h => hwp h.symm
          simp [h8, h5])
        (by simpa using hwu') hwp
        (by simp [hwv, hwhd])
      refine ⟨⟨by simpa using hnodup2, by simpa using hgoal⟩, by rw [heval x]; simp⟩


theorem prevChainB_of_linksOkB {m : Heap} : ∀ {l : List Nat},
    linksOkB m l = true → prevChainB m l = true := by
  intro l
  induction l with
  | nil => intro h; rfl
  | cons a l ih =>
    cases l with
    | nil => intro h; rfl
    | cons b l =>
      intro h
      simp only [linksOkB, okPair, Bool.and_eq_true, decide_eq_true_eq] at h
      simp only [prevChainB, Bool.and_eq_true, decide_eq_true_eq]
      exact ⟨h.1.2, ih h.2⟩

theorem prevChainB_split (m : Heap) (l₁ : List Nat) (x : Nat) (l₂ : List Nat) :
    prevChainB m (l₁ ++ x :: l₂) = (prevChainB m (l₁ ++ [x]) && prevChainB m (x :: l₂)) := by
  induction l₁ with
  | nil => simp [prevChainB]
  | cons a l₁ ih =>
    cases l₁ with
    | nil => simp [prevChainB, Bool.and_assoc]
    | cons b l₁ =>
      simp only [List.cons_append, List.append_eq, prevChainB] at ih ⊢
      rw [ih, Bool.and_assoc]

theorem prevChainB_last {m : Heap} {y w : Nat} : ∀ {l : List Nat},
    prevChainB m ((y :: l) ++ [w]) = true →
    (m w).prev = some ((y :: l).getLast (List.cons_ne_nil y l)) ∧
      prevChainB m (y :: l) = true := by
  intro l
  induction l generalizing y with
  | nil =>
    intro h
    simp only [List.cons_append, List.nil_append, prevChainB, Bool.and_eq_true,
      decide_eq_true_eq] at h
    exact ⟨h.1, rfl⟩
  | cons z l ih =>
    intro h
    simp only [List.cons_append, prevChainB, Bool.and_eq_true, decide_eq_true_eq] at h
    have h2 := ih (by simpa [prevChainB] using h.2)
    refine ⟨by simpa [List.getLast_cons] using h2.1, ?_⟩
    simp only [prevChainB, Bool.and_eq_true, decide_eq_true_eq]
    exact ⟨h.1, h2.2⟩

theorem walkBack_eq (m : Heap) (cond : Nat → Bool) (y : Nat) :
    ∀ (zs : List Nat) (fuel start : Nat), (y :: zs).getLast? = some start →
    prevChainB m ((y :: zs) : List Nat) = true →
    cond y = false → (∀ z ∈ zs, cond z = true) → zs.length ≤ fuel →
    walkBack m cond start fuel = y := by
  intro zs
  induction zs using List.reverseRecOn with
  | nil =>
    intro fuel start hstart hpc hy hzs hf
    have hsy : start = y := by simpa using hstart.symm
    subst hsy
    cases fuel with
    | zero => rfl
    | succ f => simp [walkBack, hy]
  | append_singleton ws w ih =>
    intro fuel start hstart hpc hy hzs hf
    have hstart2 : ((y :: ws) ++ [w]).getLast? = some start := by
      rw [show (y :: ws) ++ [w] = y :: (ws ++ [w]) by simp]
      exact hstart
    have hsw : start = w :=
      (Option.some.inj ((List.getLast?_concat (y :: ws)).symm.trans hstart2)).symm
    obtain ⟨f, rfl⟩ : ∃ f, fuel = f + 1 := by
      cases fuel with
      | zero => simp at hf
      | succ f => exact ⟨f, rfl⟩
    have hcw : cond w = true := hzs w (by simp)
    have hplast := prevChainB_last (by
      rw [show (y :: ws) ++ [w] = y :: (ws ++ [w]) by simp]
      exact hpc)
    rw [hsw]
    simp only [walkBack, hcw, if_true]
    rw [hplast.1]
    simp only [Option.getD_some]
    exact ih f ((y :: ws).getLast (List.cons_ne_nil y ws))
      (List.getLast?_eq_getLast _ _) hplast.2 hy
      (fun z hz => hzs z (by simp [hz])) (by simp at hf; omega)

theorem headD_concat_append_mem (l : List Nat) (a : Nat) (zs : List Nat) (d : Nat) :
    ((l ++ [a]) ++ zs).headD d ∈ l ++ [a] := by
  cases l <;> simp

theorem headD_mem_concat (t : List Nat) (z d : Nat) : (t ++ [z]).headD d ∈ t ++ [z] := by
  cases t <;> simp

theorem getLastD_append_concat (l t : List Nat) (z d : Nat) :
    (l ++ (t ++ [z])).getLastD d = z := by
  rw [show l ++ (t ++ [z]) = (l ++ t) ++ [z] by simp, List.getLastD_concat]

theorem ordered_insert_core (m : Heap) (hd n fuel : Nat) (cond : Nat → Bool)
    (ys zs : List Nat) (hwf : Wf m hd (ys ++ zs)) (hn : n ∉ hd :: (ys ++ zs))
    (hys : ∀ y ∈ ys, cond y = false) (hzs : ∀ z ∈ zs, cond z = true)
    (hf : (ys ++ zs).length ≤ fuel) :
    Wf (static_double_list.insert_after m n
      (if list_empty m hd || !cond ((list_tail m hd).getD hd) then (list_tail m hd).getD hd
       else if cond ((list_head m hd).getD hd) then hd
       else walkBack m cond ((list_tail m hd).getD hd) fuel)) hd (ys ++ n :: zs) := by
  rcases List.eq_nil_or_concat ys with rfl | ⟨l, a, rfl⟩
  · rcases List.eq_nil_or_concat zs with rfl | ⟨t, z, rfl⟩
    · -- both empty: insert into the empty list, at the tail (= the header)
      have hemp : list_empty m hd = true := by simpa using Wf_list_empty hwf
      have htl : (list_tail m hd).getD hd = hd := by
        have := Wf_prev_hd hwf
        simp only [List.nil_append] at this
        simp [list_tail, this]
      rw [hemp, htl]
      simp only [Bool.true_or, if_true]
      simpa using Wf_insert_head n hwf hn
    · -- ys = [], zs ≠ []: insert at the head
      simp only [List.concat_eq_append, List.nil_append] at hwf hn hzs hf ⊢
      have hemp : list_empty m hd = false := by rw [Wf_list_empty hwf]; simp
      have htl : (list_tail m hd).getD hd = z := by
        have h1 := Wf_prev_hd hwf
        rw [list_tail, h1]
        simp only [Option.getD_some]
        rw [List.getLastD_concat]
      have hcondtl : cond ((list_tail m hd).getD hd) = true := by
        rw [htl]
        exact hzs z (by simp)
      have hcondhd : cond ((list_head m hd).getD hd) = true := by
        have h1 := Wf_next_hd hwf
        rw [list_head, h1]
        simp only [Option.getD_some]
        exact hzs _ (headD_mem_concat t z hd)
      rw [hemp, hcondtl, hcondhd]
      simp only [Bool.not_true, Bool.or_false, if_false, if_true]
      simpa using Wf_insert_head n hwf hn
  · rcases List.eq_nil_or_concat zs with rfl | ⟨t, z, rfl⟩
    · -- zs = [], ys ≠ []: insert at the tail
      simp only [List.concat_eq_append, List.append_nil] at hwf hn hys hf ⊢
      have hemp : list_empty m hd = false := by rw [Wf_list_empty hwf]; simp
      have htl : (list_tail m hd).getD hd = a := by
        have h1 := Wf_prev_hd hwf
        rw [list_tail, h1]
        simp only [Option.getD_some]
        rw [List.getLastD_concat]
      have hcondtl : cond ((list_tail m hd).getD hd) = false := by
        rw [htl]
        exact hys a (by simp)
      rw [hemp, hcondtl, htl]
      simp only [Bool.not_false, Bool.or_true, if_true]
      have hmid := Wf_insert_mid n (by simpa using hwf) (by simpa using hn)
      simpa using hmid
    · -- both nonempty: backward scan from the tail
      simp only [List.concat_eq_append] at hwf hn hys hzs hf ⊢
      have hemp : list_empty m hd = false := by rw [Wf_list_empty hwf]; cases l <;> simp
      have htl : (list_tail m hd).getD hd = z := by
        have h1 := Wf_prev_hd hwf
        rw [list_tail, h1]
        simp only [Option.getD_some]
        rw [getLastD_append_concat]
      have hcondtl : cond ((list_tail m hd).getD hd) = true := by
        rw [htl]
        exact hzs z (by simp)
      have hcondhd : cond ((list_head m hd).getD hd) = false := by
        have h1 := Wf_next_hd hwf
        rw [list_head, h1]
        simp only [Option.getD_some]
        refine hys _ ?_
        have h2 := headD_concat_append_mem l a (t ++ [z]) hd
        simpa using h2
      rw [hemp, hcondtl, hcondhd, htl]
      simp only [Bool.not_true, Bool.or_false, if_false]
      -- the backward walk stops at `a`, the last node of `ys`
      have hchain := prevChainB_of_linksOkB hwf.2
      have hpc : prevChainB m (a :: (t ++ [z])) = true := by
        have hre : hd :: (((l ++ [a]) ++ (t ++ [z])) ++ [hd])
            = (hd :: l) ++ a :: ((t ++ [z]) ++ [hd]) := by simp
        rw [hre, prevChainB_split m (hd :: l) a ((t ++ [z]) ++ [hd]),
          Bool.and_eq_true] at hchain
        have h3 := hchain.2
        rw [show a :: ((t ++ [z]) ++ [hd]) = (a :: (t ++ [z])) ++ [hd] by simp] at h3
        exact (prevChainB_last h3).2
      have hwalk : walkBack m cond z fuel = a := by
        refine walkBack_eq m cond a (t ++ [z]) fuel z ?_ hpc (hys a (by simp))
          (fun w hw => hzs w (by simpa using hw)) (by simp at hf ⊢; omega)
        rw [show a :: (t ++ [z]) = (a :: t) ++ [z] by simp]
        exact List.getLast?_concat _
      rw [hwalk]
      have hmid := Wf_insert_mid n (u := l) (v := t ++ [z])
        (by simpa using hwf) (by simpa using hn)
      simpa using hmid

theorem decide_le_eq_not_gt (p q : Nat) : decide (p ≤ q) = !decide (p > q) := by
  by_cases h : p ≤ q
  · simp [h, Nat.not_lt.2 h]
  · simp [h, Nat.lt_of_not_le h]

theorem decide_ge_eq_not_lt (p q : Nat) : decide (p ≥ q) = !decide (p < q) := by
  by_cases h : q ≤ p
  · simp [h, Nat.not_lt.2 h]
  · simp [h, Nat.lt_of_not_le h]

theorem waiting_link_refines (fuel : Nat) (k : Kernel) (hd n : Nat) (ys zs : List Nat)
    (hwf : Wf k.mem hd (ys ++ zs)) (hn : n ∉ hd :: (ys ++ zs))
    (hys : ∀ y ∈ ys, decide (sched_prio k n > sched_prio k y) = false)
    (hzs : ∀ z ∈ zs, decide (sched_prio k n > sched_prio k z) = true)
    (hf : (ys ++ zs).length ≤ fuel) :
    Wf (waiting_threads_list.link fuel k hd n).mem hd (ys ++ n :: zs) := by
  have hcore := ordered_insert_core k.mem hd n fuel
    (fun x => decide (sched_prio k n > sched_prio k x)) ys zs hwf hn hys hzs hf
  simp only [waiting_threads_list.link]
  rw [decide_le_eq_not_gt]
  exact hcore

theorem ready_link_refines (fuel : Nat) (k : Kernel) (hd n : Nat) (ys zs : List Nat)
    (hwf : Wf k.mem hd (ys ++ zs)) (hn : n ∉ hd :: (ys ++ zs))
    (hys : ∀ y ∈ ys, decide (k.prio n > k.prio y) = false)
    (hzs : ∀ z ∈ zs, decide (k.prio n > k.prio z) = true)
    (hf : (ys ++ zs).length ≤ fuel) :
    Wf (ready_threads_list.link fuel k hd n).mem hd (ys ++ n :: zs) := by
  have hcore := ordered_insert_core k.mem hd n fuel
    (fun x => decide (k.prio n > k.prio x)) ys zs hwf hn hys hzs hf
  have hprev := Wf_prev_hd hwf
  have hcond : ¬ ((k.mem hd).prev = none) := by rw [hprev]; simp
  simp only [ready_threads_list.link, hcond, if_false, if_neg hcond]
  rw [decide_le_eq_not_gt]
  exact hcore

theorem clock_link_refines (fuel : Nat) (k : Kernel) (hd n : Nat) (ys zs : List Nat)
    (hwf : Wf k.mem hd (ys ++ zs)) (hn : n ∉ hd :: (ys ++ zs))
    (hys : ∀ y ∈ ys, decide (k.stamp n < k.stamp y) = false)
    (hzs : ∀ z ∈ zs, decide (k.stamp n < k.stamp z) = true)
    (hf : (ys ++ zs).length ≤ fuel) :
    Wf (clock_timestamps_list.link fuel k hd n).mem hd (ys ++ n :: zs) := by
  have hcore := ordered_insert_core k.mem hd n fuel
    (fun x => decide (k.stamp n < k.stamp x)) ys zs hwf hn hys hzs hf
  simp only [clock_timestamps_list.link]
  rw [decide_ge_eq_not_lt]
  exact hcore

theorem waiting_link_fields (fuel : Nat) (k : Kernel) (hd n : Nat) :
    (waiting_threads_list.link fuel k hd n).prio = k.prio ∧
    (waiting_threads_list.link fuel k hd n).sstate = k.sstate ∧
    (waiting_threads_list.link fuel k hd n).stamp = k.stamp ∧
    (waiting_threads_list.link fuel k hd n).kind = k.kind ∧
    (waiting_threads_list.link fuel k hd n).resumed = k.resumed :=
  ⟨rfl, rfl, rfl, rfl, rfl⟩

theorem clock_link_fields (fuel : Nat) (k : Kernel) (hd n : Nat) :
    (clock_timestamps_list.link fuel k hd n).prio = k.prio ∧
    (clock_timestamps_list.link fuel k hd n).sstate = k.sstate ∧
    (clock_timestamps_list.link fuel k hd n).stamp = k.stamp ∧
    (clock_timestamps_list.link fuel k hd n).kind = k.kind ∧
    (clock_timestamps_list.link fuel k hd n).resumed = k.resumed :=
  ⟨rfl, rfl, rfl, rfl, rfl⟩

theorem dropWhile_gt_all (p : Nat → Nat) (v : Nat) :
    ∀ (ys : List Nat), ys.Pairwise (fun a b => p b ≤ p a) →
    ∀ z ∈ ys.dropWhile (fun y => !decide (v > p y)), decide (v > p z) = true := by
  intro ys
  induction ys with
  | nil => intro _ z hz; simp at hz
  | cons y t ih =>
    intro hp z hz
    rw [List.dropWhile_cons] at hz
    by_cases hy : (!decide (v > p y)) = true
    · rw [if_pos hy] at hz
      exact ih (List.pairwise_cons.1 hp).2 z hz
    · rw [if_neg hy] at hz
      have hcy : decide (v > p y) = true := by simpa using hy
      rcases List.mem_cons.1 hz with rfl | hzt
      · exact hcy
      · have hle : p z ≤ p y := (List.pairwise_cons.1 hp).1 z hzt
        simp only [decide_eq_true_eq] at hcy ⊢
        omega

theorem dropWhile_lt_all (s : Nat → Nat) (v : Nat) :
    ∀ (ys : List Nat), ys.Pairwise (fun a b => s a ≤ s b) →
    ∀ z ∈ ys.dropWhile (fun y => !decide (v < s y)), decide (v < s z) = true := by
  intro ys
  induction ys with
  | nil => intro _ z hz; simp at hz
  | cons y t ih =>
    intro hp z hz
    rw [List.dropWhile_cons] at hz
    by_cases hy : (!decide (v < s y)) = true
    · rw [if_pos hy] at hz
      exact ih (List.pairwise_cons.1 hp).2 z hz
    · rw [if_neg hy] at hz
      have hcy : decide (v < s y) = true := by simpa using hy
      rcases List.mem_cons.1 hz with rfl | hzt
      · exact hcy
      · have hle : s y ≤ s z := (List.pairwise_cons.1 hp).1 z hzt
        simp only [decide_eq_true_eq] at hcy ⊢
        omega


theorem waiting_link_all_spec (fuel hd : Nat) (p : Nat → Nat) (ns : List Nat) :
    ∀ (todo done ys : List Nat) (k : Kernel),
      k.prio = p → ns = done ++ todo → ns.Nodup → hd ∉ ns → ns.length ≤ fuel →
      Wf k.mem hd ys → ys.Perm done →
      ys.Pairwise (fun a b => p b < p a ∨ (p a = p b ∧ [a, b].Sublist ns)) →
      ∃ ys', Wf (waiting_link_all fuel hd todo k).mem hd ys' ∧
        (waiting_link_all fuel hd todo k).prio = p ∧
        ys'.Perm ns ∧
        ys'.Pairwise (fun a b => p b < p a ∨ (p a = p b ∧ [a, b].Sublist ns)) := by
  intro todo
  induction todo with
  | nil =>
    intro done ys k hp hns hnd hhd hfl hwf hperm hpair
    refine ⟨ys, hwf, hp, ?_, hpair⟩
    rw [hns, List.append_nil]
    exact hperm
  | cons n rest ih =>
    intro done ys k hp hns hnd hhd hfl hwf hperm hpair
    have hndone : n ∉ done := by
      rw [hns] at hnd
      have hdis := List.disjoint_of_nodup_append hnd
      exact fun h => hdis h (by simp)
    have hnys : n ∉ ys := fun h => hndone (hperm.mem_iff.1 h)
    have hnhd : n ≠ hd := by
      intro h
      exact hhd (by rw [hns, ← h]; simp)
    have happ : ys.takeWhile (fun y => !decide (p n > p y)) ++
        ys.dropWhile (fun y => !decide (p n > p y)) = ys :=
      List.takeWhile_append_dropWhile _ _
    have hsorted : ys.Pairwise (fun a b => p b ≤ p a) := by
      refine hpair.imp ?_
      intro a b hab
      rcases hab with h | h
      · omega
      · omega
    have hys1 : ∀ y ∈ ys.takeWhile (fun y => !decide (p n > p y)),
        decide (sched_prio k n > sched_prio k y) = false := by
      intro y hy
      have h1 := List.mem_takeWhile_imp hy
      simp only [sched_prio, hp]
      simpa using h1
    have hys2 : ∀ z ∈ ys.dropWhile (fun y => !decide (p n > p y)),
        decide (sched_prio k n > sched_prio k z) = true := by
      intro z hz
      have h1 := dropWhile_gt_all p (p n) ys hsorted z hz
      simp only [sched_prio, hp]
      exact h1
    have hnmem : n ∉ hd :: (ys.takeWhile (fun y => !decide (p n > p y)) ++
        ys.dropWhile (fun y => !decide (p n > p y))) := by
      rw [happ]
      simp only [List.mem_cons, not_or]
      exact ⟨hnhd, hnys⟩
    have hfl2 : (ys.takeWhile (fun y => !decide (p n > p y)) ++
        ys.dropWhile (fun y => !decide (p n > p y))).length ≤ fuel := by
      rw [happ, hperm.length_eq]
      have h2 : done.length ≤ ns.length := by rw [hns]; simp
      omega
    have hwf2 : Wf k.mem hd (ys.takeWhile (fun y => !decide (p n > p y)) ++
        ys.dropWhile (fun y => !decide (p n > p y))) := by
      rw [happ]; exact hwf
    have hlink := waiting_link_refines fuel k hd n _ _ hwf2 hnmem hys1 hys2 hfl2
    have hperm' : (ys.takeWhile (fun y => !decide (p n > p y)) ++
        n :: ys.dropWhile (fun y => !decide (p n > p y))).Perm (done ++ [n]) := by
      have h1 := @List.perm_middle Nat n (ys.takeWhile (fun y => !decide (p n > p y)))
        (ys.dropWhile (fun y => !decide (p n > p y)))
      rw [happ] at h1
      have h2 : (n :: ys).Perm (n :: done) := hperm.cons n
      have h3 : (n :: done).Perm (done ++ [n]) := by
        have h4 := @List.perm_middle Nat n done []
        simpa using h4.symm
      exact (h1.trans h2).trans h3
    have hpairys : (ys.takeWhile (fun y => !decide (p n > p y)) ++
        ys.dropWhile (fun y => !decide (p n > p y))).Pairwise
        (fun a b => p b < p a ∨ (p a = p b ∧ [a, b].Sublist ns)) := by
      rw [happ]; exact hpair
    have hsplit := List.pairwise_append.1 hpairys
    have hpair' : (ys.takeWhile (fun y => !decide (p n > p y)) ++
        n :: ys.dropWhile (fun y => !decide (p n > p y))).Pairwise
        (fun a b => p b < p a ∨ (p a = p b ∧ [a, b].Sublist ns)) := by
      refine List.pairwise_append.2 ⟨hsplit.1, ?_, ?_⟩
      · refine List.pairwise_cons.2 ⟨?_, hsplit.2.1⟩
        intro b hb
        have h1 := dropWhile_gt_all p (p n) ys hsorted b hb
        left
        simpa using h1
      · intro a ha b hb
        rcases List.mem_cons.1 hb with rfl | hb2
        · have hca := List.mem_takeWhile_imp ha
          have hle : p b ≤ p a := by simpa using hca
          have hadone : a ∈ done := hperm.mem_iff.1 (by
            rw [← happ]
            exact List.mem_append_left _ ha)
          have hsub : [a, b].Sublist ns := by
            rw [hns]
            have h5 : [a].Sublist done := List.singleton_sublist.2 hadone
            have h6 : [b].Sublist (b :: rest) := List.singleton_sublist.2 (by simp)
            have h7 := List.Sublist.append h5 h6
            simpa using h7
          rcases Nat.eq_or_lt_of_le hle with heq | hlt
          · right
            exact ⟨heq.symm, hsub⟩
          · left
            exact hlt
        · exact hsplit.2.2 a ha b hb2
    have hres := ih (done ++ [n]) _ (waiting_threads_list.link fuel k hd n)
      (by rw [(waiting_link_fields fuel k hd n).1, hp])
      (by rw [hns]; simp) hnd hhd hfl hlink hperm' hpair'
    simpa [waiting_link_all] using hres


theorem clock_link_all_spec (fuel hd : Nat) (s : Nat → Nat) (ns : List Nat) :
    ∀ (todo done ys : List Nat) (k : Kernel),
      k.stamp = s → ns = done ++ todo → ns.Nodup → hd ∉ ns → ns.length ≤ fuel →
      Wf k.mem hd ys → ys.Perm done →
      ys.Pairwise (fun a b => s a < s b ∨ (s a = s b ∧ [a, b].Sublist ns)) →
      ∃ ys', Wf (clock_link_all fuel hd todo k).mem hd ys' ∧
        (clock_link_all fuel hd todo k).stamp = s ∧
        (clock_link_all fuel hd todo k).kind = k.kind ∧
        (clock_link_all fuel hd todo k).sstate = k.sstate ∧
        ys'.Perm ns ∧
        ys'.Pairwise (fun a b => s a < s b ∨ (s a = s b ∧ [a, b].Sublist ns)) := by
  intro todo
  induction todo with
  | nil =>
    intro done ys k hp hns hnd hhd hfl hwf hperm hpair
    refine ⟨ys, hwf, hp, rfl, rfl, ?_, hpair⟩
    rw [hns, List.append_nil]
    exact hperm
  | cons n rest ih =>
    intro done ys k hp hns hnd hhd hfl hwf hperm hpair
    have hndone : n ∉ done := by
      rw [hns] at hnd
      have hdis := List.disjoint_of_nodup_append hnd
      exact fun h => hdis h (by simp)
    have hnys : n ∉ ys := fun h => hndone (hperm.mem_iff.1 h)
    have hnhd : n ≠ hd := by
      intro h
      exact hhd (by rw [hns, ← h]; simp)
    have happ : ys.takeWhile (fun y => !decide (s n < s y)) ++
        ys.dropWhile (fun y => !decide (s n < s y)) = ys :=
      List.takeWhile_append_dropWhile _ _
    have hsorted : ys.Pairwise (fun a b => s a ≤ s b) := by
      refine hpair.imp ?_
      intro a b hab
      rcases hab with h | h
      · omega
      · omega
    have hys1 : ∀ y ∈ ys.takeWhile (fun y => !decide (s n < s y)),
        decide (k.stamp n < k.stamp y) = false := by
      intro y hy
      have h1 := List.mem_takeWhile_imp hy
      rw [hp]
      simpa using h1
    have hys2 : ∀ z ∈ ys.dropWhile (fun y => !decide (s n < s y)),
        decide (k.stamp n < k.stamp z) = true := by
      intro z hz
      have h1 := dropWhile_lt_all s (s n) ys hsorted z hz
      rw [hp]
      exact h1
    have hnmem : n ∉ hd :: (ys.takeWhile (fun y => !decide (s n < s y)) ++
        ys.dropWhile (fun y => !decide (s n < s y))) := by
      rw [happ]
      simp only [List.mem_cons, not_or]
      exact ⟨hnhd, hnys⟩
    have hfl2 : (ys.takeWhile (fun y => !decide (s n < s y)) ++
        ys.dropWhile (fun y => !decide (s n < s y))).length ≤ fuel := by
      rw [happ, hperm.length_eq]
      have h2 : done.length ≤ ns.length := by rw [hns]; simp
      omega
    have hwf2 : Wf k.mem hd (ys.takeWhile (fun y => !decide (s n < s y)) ++
        ys.dropWhile (fun y => !decide (s n < s y))) := by
      rw [happ]; exact hwf
    have hlink := clock_link_refines fuel k hd n _ _ hwf2 hnmem hys1 hys2 hfl2
    have hperm' : (ys.takeWhile (fun y => !decide (s n < s y)) ++
        n :: ys.dropWhile (fun y => !decide (s n < s y))).Perm (done ++ [n]) := by
      have h1 := @List.perm_middle Nat n (ys.takeWhile (fun y => !decide (s n < s y)))
        (ys.dropWhile (fun y => !decide (s n < s y)))
      rw [happ] at h1
      have h2 : (n :: ys).Perm (n :: done) := hperm.cons n
      have h3 : (n :: done).Perm (done ++ [n]) := by
        have h4 := @List.perm_middle Nat n done []
        simpa using h4.symm
      exact (h1.trans h2).trans h3
    have hpairys : (ys.takeWhile (fun y => !decide (s n < s y)) ++
        ys.dropWhile (fun y => !decide (s n < s y))).Pairwise
        (fun a b => s a < s b ∨ (s a = s b ∧ [a, b].Sublist ns)) := by
      rw [happ]; exact hpair
    have hsplit := List.pairwise_append.1 hpairys
    have hpair' : (ys.takeWhile (fun y => !decide (s n < s y)) ++
        n :: ys.dropWhile (fun y => !decide (s n < s y))).Pairwise
        (fun a b => s a < s b ∨ (s a = s b ∧ [a, b].Sublist ns)) := by
      refine List.pairwise_append.2 ⟨hsplit.1, ?_, ?_⟩
      · refine List.pairwise_cons.2 ⟨?_, hsplit.2.1⟩
        intro b hb
        have h1 := dropWhile_lt_all s (s n) ys hsorted b hb
        left
        simpa using h1
      · intro a ha b hb
        rcases List.mem_cons.1 hb with rfl | hb2
        · have hca := List.mem_takeWhile_imp ha
          have hle : s a ≤ s b := by simpa using hca
          have hadone : a ∈ done := hperm.mem_iff.1 (by
            rw [← happ]
            exact List.mem_append_left _ ha)
          have hsub : [a, b].Sublist ns := by
            rw [hns]
            have h5 : [a].Sublist done := List.singleton_sublist.2 hadone
            have h6 : [b].Sublist (b :: rest) := List.singleton_sublist.2 (by simp)
            have h7 := List.Sublist.append h5 h6
            simpa using h7
          rcases Nat.eq_or_lt_of_le hle with heq | hlt
          · right
            exact ⟨heq, hsub⟩
          · left
            exact hlt
        · exact hsplit.2.2 a ha b hb2
    have hres := ih (done ++ [n]) _ (clock_timestamps_list.link fuel k hd n)
      (by rw [(clock_link_fields fuel k hd n).2.2.1, hp])
      (by rw [hns]; simp) hnd hhd hfl hlink hperm' hpair'
    simpa [clock_link_all] using hres

theorem dropWhile_stamp_gt (s : Nat → Nat) (now : Nat) :
    ∀ (ys : List Nat), ys.Pairwise (fun a b => s a ≤ s b) →
    ∀ z ∈ ys.dropWhile (fun y => decide (s y ≤ now)), now < s z := by
  intro ys
  induction ys with
  | nil => intro _ z hz; simp at hz
  | cons y t ih =>
    intro hp z hz
    rw [List.dropWhile_cons] at hz
    by_cases hy : (decide (s y ≤ now)) = true
    · rw [if_pos hy] at hz
      exact ih (List.pairwise_cons.1 hp).2 z hz
    · rw [if_neg hy] at hz
      have hcy : now < s y := by
        simp only [decide_eq_true_eq] at hy
        omega
      rcases List.mem_cons.1 hz with rfl | hzt
      · exact hcy
      · have hle : s y ≤ s z := (List.pairwise_cons.1 hp).1 z hzt
        omega

theorem node_action_timeout (linkFuel : Nat) (k : Kernel) (hd x : Nat)
    (hk : k.kind x = NodeKind.timeoutNode) :
    (node_action linkFuel k hd x).mem = static_double_list_links.unlink k.mem x ∧
    (node_action linkFuel k hd x).stamp = k.stamp ∧
    (node_action linkFuel k hd x).prio = k.prio ∧
    (node_action linkFuel k hd x).kind = k.kind ∧
    (node_action linkFuel k hd x).sstate = k.sstate := by
  simp only [node_action, hk, timeout_thread_node.action, thread_resume]
  split_ifs <;> exact ⟨rfl, rfl, rfl, rfl, rfl⟩

theorem check_timestamp_go_spec (linkFuel hd now : Nat) :
    ∀ (xs : List Nat) (k : Kernel) (acc : List (Nat × Nat)) (loopFuel : Nat),
      Wf k.mem hd xs →
      (∀ x ∈ xs, k.kind x = NodeKind.timeoutNode) →
      xs.length + 1 ≤ loopFuel →
      ∃ k', check_timestamp_go linkFuel hd now loopFuel k acc =
          (k', acc.reverse ++ (xs.takeWhile (fun x => decide (k.stamp x ≤ now))).map
            (fun x => (x, k.stamp x))) ∧
        Wf k'.mem hd (xs.dropWhile (fun x => decide (k.stamp x ≤ now))) ∧
        k'.stamp = k.stamp ∧ k'.prio = k.prio ∧ k'.kind = k.kind ∧
        k'.sstate = k.sstate := by
  intro xs
  induction xs with
  | nil =>
    intro k acc loopFuel hwf hkind hfl
    obtain ⟨f, rfl⟩ : ∃ f, loopFuel = f + 1 := by
      cases loopFuel with
      | zero => omega
      | succ f => exact ⟨f, rfl⟩
    have hemp : list_empty k.mem hd = true := by simpa using Wf_list_empty hwf
    refine ⟨k, ?_, by simpa using hwf, rfl, rfl, rfl, rfl⟩
    simp [check_timestamp_go, hemp]
  | cons x rest ih =>
    intro k acc loopFuel hwf hkind hfl
    obtain ⟨f, rfl⟩ : ∃ f, loopFuel = f + 1 := by
      cases loopFuel with
      | zero => simp at hfl
      | succ f => exact ⟨f, rfl⟩
    have hemp : list_empty k.mem hd = false := by simpa using Wf_list_empty hwf
    have hhead : (list_head k.mem hd).getD hd = x := by
      rw [list_head, Wf_next_hd hwf]
      rfl
    by_cases hnow : now ≥ k.stamp x
    · -- fire the head
      have hact := node_action_timeout linkFuel k hd x (hkind x (by simp))
      have hwf2 : Wf (node_action linkFuel k hd x).mem hd rest := by
        rw [hact.1]
        exact (Wf_unlink (u := []) (by simpa using hwf)).1
      have hkind2 : ∀ y ∈ rest, (node_action linkFuel k hd x).kind y
          = NodeKind.timeoutNode := by
        intro y hy
        rw [hact.2.2.2.1]
        exact hkind y (by simp [hy])
      have hres := ih (node_action linkFuel k hd x) ((x, k.stamp x) :: acc) f
        hwf2 hkind2 (by simp at hfl; omega)
      obtain ⟨k', hgo, hwf', hst, hpr, hkd, hss⟩ := hres
      refine ⟨k', ?_, ?_, ?_, ?_, ?_, ?_⟩
      · rw [show check_timestamp_go linkFuel hd now (f + 1) k acc
            = check_timestamp_go linkFuel hd now f (node_action linkFuel k hd x)
              ((x, k.stamp x) :: acc) by
          simp [check_timestamp_go, hemp, hhead, hnow]]
        rw [hgo]
        rw [show (x :: rest).takeWhile (fun y => decide (k.stamp y ≤ now))
            = x :: rest.takeWhile (fun y => decide (k.stamp y ≤ now)) by
          rw [List.takeWhile_cons]
          simp [hnow]]
        rw [hact.2.1]
        simp
      · rw [show (x :: rest).dropWhile (fun y => decide (k.stamp y ≤ now))
            = rest.dropWhile (fun y => decide (k.stamp y ≤ now)) by
          rw [List.dropWhile_cons]
          simp [hnow]]
        rw [hact.2.1] at hwf'
        exact hwf'
      · rw [hst, hact.2.1]
      · rw [hpr, hact.2.2.1]
      · rw [hkd, hact.2.2.2.1]
      · rw [hss, hact.2.2.2.2]
    · -- head is in the future: stop
      have hstop : check_timestamp_go linkFuel hd now (f + 1) k acc = (k, acc.reverse) := by
        simp [check_timestamp_go, hemp, hhead, hnow]
      refine ⟨k, ?_, ?_, rfl, rfl, rfl, rfl⟩
      · rw [hstop]
        rw [show (x :: rest).takeWhile (fun y => decide (k.stamp y ≤ now)) = [] by
          rw [List.takeWhile_cons]
          simp only [decide_eq_true_eq]
          rw [if_neg (by omega)]]
        simp
      · rw [show (x :: rest).dropWhile (fun y => decide (k.stamp y ≤ now)) = x :: rest by
          rw [List.dropWhile_cons]
          simp only [decide_eq_true_eq]
          rw [if_neg (by omega)]]
        exact hwf

theorem Wf_clear (m : Heap) (hd : Nat) : Wf (static_double_list.clear m hd) hd [] := by
  constructor
  · simp
  · simp [linksOkB, okPair, static_double_list.clear, setPrev, setNext]

theorem insert_after_prev_some (m : Heap) (n a : Nat) :
    ((static_double_list.insert_after m n a) n).prev ≠ none := by
  simp only [static_double_list.insert_after]
  cases h : (setPrev m n (some a) a).next with
  | none => simp [setNext, setPrev]
  | some an =>
    simp only [h]
    by_cases h1 : n = an <;> by_cases h2 : n = a <;>
      simp [setNext, setPrev, h1, h2]

theorem iterNext_chain (m : Heap) : ∀ (l : List Nat), linksOkB m l = true →
    ∀ j, j < l.length → iterNext m j (l.headD 0) = l[j]? := by
  intro l
  induction l with
  | nil => intro _ j hj; simp at hj
  | cons a l ih =>
    intro hok j hj
    cases l with
    | nil =>
      have hj0 : j = 0 := by
        simp only [List.length_cons, List.length_nil] at hj
        omega
      subst hj0
      rfl
    | cons b t =>
      cases j with
      | zero => rfl
      | succ j =>
        simp only [linksOkB, okPair, Bool.and_eq_true, decide_eq_true_eq] at hok
        have hnext : (m a).next = some b := hok.1.1
        simp only [List.headD_cons, iterNext, hnext]
        have hrec := ih hok.2 j (by simpa using hj)
        rw [show (a :: b :: t)[j + 1]? = (b :: t)[j]? by simp]
        exact hrec

theorem iterPrev_eq_mirror (m : Heap) : ∀ (j x : Nat),
    iterPrev m j x = iterNext (mirror m) j x := by
  intro j
  induction j with
  | zero => intro x; rfl
  | succ j ih =>
    intro x
    simp only [iterPrev, iterNext, mirror]
    cases (m x).prev with
    | none => rfl
    | some y => exact ih y

theorem Wf_cycle_steps {m : Heap} {hd : Nat} {xs : List Nat} (hwf : Wf m hd xs) :
    iterNext m (xs.length + 1) hd = some hd ∧
    (∀ j, 0 < j → j ≤ xs.length → iterNext m j hd ≠ some hd) := by
  obtain ⟨hnd, hok⟩ := hwf
  have hchain := iterNext_chain m (hd :: (xs ++ [hd])) hok
  have hhd : (hd :: (xs ++ [hd])).headD 0 = hd := rfl
  constructor
  · have h1 := hchain (xs.length + 1) (by simp)
    rw [hhd] at h1
    rw [h1]
    rw [show (hd :: (xs ++ [hd]))[xs.length + 1]? = (xs ++ [hd])[xs.length]? by simp]
    simp
  · intro j hj0 hjle
    have h1 := hchain j (by simp; omega)
    rw [hhd] at h1
    rw [h1]
    obtain ⟨i, rfl⟩ : ∃ i, j = i + 1 := by
      cases j with
      | zero => omega
      | succ i => exact ⟨i, rfl⟩
    rw [show (hd :: (xs ++ [hd]))[i + 1]? = (xs ++ [hd])[i]? by simp]
    have hi : i < xs.length := by omega
    rw [List.getElem?_append_left hi]
    rw [List.getElem?_eq_getElem hi]
    intro hcontra
    have : xs[i] = hd := by simpa using hcontra
    have hmem : hd ∈ xs := by rw [← this]; simp
    have := (List.nodup_cons.1 hnd).1
    exact this hmem

theorem Wf_cycle_steps_prev {m : Heap} {hd : Nat} {xs : List Nat} (hwf : Wf m hd xs) :
    iterPrev m (xs.length + 1) hd = some hd ∧
    (∀ j, 0 < j → j ≤ xs.length → iterPrev m j hd ≠ some hd) := by
  have h := Wf_cycle_steps (Wf_mirror hwf)
  rw [List.length_reverse] at h
  constructor
  · rw [iterPrev_eq_mirror]
    exact h.1
  · intro j h1 h2
    rw [iterPrev_eq_mirror]
    exact h.2 j h1 h2

theorem Wf_neighbor_next {m : Heap} {hd : Nat} {xs : List Nat} (hwf : Wf m hd xs) :
    ∀ x ∈ xs, ∃ s, (m x).next = some s ∧ (m s).prev = some x := by
  intro x hx
  obtain ⟨u, v, rfl⟩ := List.append_of_mem hx
  obtain ⟨hnd, hok⟩ := hwf
  cases v with
  | nil =>
    have hp := linksOkB_pair m (hd :: u) x hd [] (by simpa using hok)
    exact ⟨hd, hp.1, hp.2⟩
  | cons w v' =>
    have hp := linksOkB_pair m (hd :: u) x w (v' ++ [hd]) (by simpa using hok)
    exact ⟨w, hp.1, hp.2⟩

theorem Wf_neighbor_prev {m : Heap} {hd : Nat} {xs : List Nat} (hwf : Wf m hd xs) :
    ∀ x ∈ xs, ∃ q, (m x).prev = some q ∧ (m q).next = some x := by
  intro x hx
  obtain ⟨s, h1, h2⟩ := Wf_neighbor_next (Wf_mirror hwf) x (by simpa using hx)
  exact ⟨s, h1, h2⟩

theorem Reach_Wf {hd : Nat} {m : Heap} {xs : List Nat} (h : Reach hd m xs) :
    Wf m hd xs := by
  induction h with
  | init m => exact Wf_clear m hd
  | insHead n _ hn ih => exact Wf_insert_head n ih hn
  | insMid u v a n _ hn ih => exact Wf_insert_mid n ih hn
  | del u v x _ ih => exact (Wf_unlink ih).1

theorem unlink_next_none (m : Heap) (x nx px : Nat)
    (h1 : (m x).next = some nx) (h2 : (m x).prev = some px) :
    ((static_double_list_links.unlink m x) x).next = none := by
  simp only [static_double_list_links.unlink, h1, h2]
  simp [setNext]

theorem unlink_idem (m : Heap) (x : Nat) :
    static_double_list_links.unlink (static_double_list_links.unlink m x) x
      = static_double_list_links.unlink m x := by
  cases h1 : (m x).next with
  | none =>
    have e : static_double_list_links.unlink m x = m := unlink_detached m x h1
    rw [e, e]
  | some nx =>
    cases h2 : (m x).prev with
    | none =>
      have e : static_double_list_links.unlink m x = m := by
        simp only [static_double_list_links.unlink, h1, h2]
      rw [e, e]
    | some px =>
      exact unlink_detached _ x (unlink_next_none m x nx px h1 h2)

theorem resume_one_nonempty {k : Kernel} {hd x : Nat} {rest : List Nat}
    (hwf : Wf k.mem hd (x :: rest)) :
    Wf (waiting_threads_list.resume_one k hd).mem hd rest ∧
    (waiting_threads_list.resume_one k hd).sstate = k.sstate ∧
    (waiting_threads_list.resume_one k hd).resumed =
      (if k.sstate x ≠ TState.destroyed then k.resumed ++ [x] else k.resumed) := by
  have hemp : list_empty k.mem hd = false := by simpa using Wf_list_empty hwf
  have hhead : (list_head k.mem hd).getD hd = x := by
    rw [list_head, Wf_next_hd hwf]
    rfl
  have hu := Wf_unlink (u := []) (v := rest) (by simpa using hwf)
  simp only [waiting_threads_list.resume_one, hemp, Bool.false_eq_true, if_false, hhead,
    thread_resume]
  split_ifs with hs
  · exact ⟨by simpa using hu.1, rfl, rfl⟩
  · exact ⟨by simpa using hu.1, rfl, rfl⟩

theorem unlink_head_spec {k : Kernel} {hd x : Nat} {rest : List Nat}
    (hwf : Wf k.mem hd (x :: rest)) :
    (ready_threads_list.unlink_head k hd).2 = x ∧
    Wf (ready_threads_list.unlink_head k hd).1.mem hd rest ∧
    (ready_threads_list.unlink_head k hd).1.sstate x = TState.running ∧
    (∀ y, y ≠ x → (ready_threads_list.unlink_head k hd).1.sstate y = k.sstate y) := by
  have hhead : (list_head k.mem hd).getD hd = x := by
    rw [list_head, Wf_next_hd hwf]
    rfl
  simp only [ready_threads_list.unlink_head, hhead]
  refine ⟨?_, ?_, ?_, ?_⟩
  · trivial
  · exact (Wf_unlink (u := []) (v := rest) (by simpa using hwf)).1
  · simp [Function.update]
  · intro y hy
    simp [Function.update, hy]

theorem clear_header (m : Heap) (hd : Nat) :
    (static_double_list.clear m hd) hd = { prev := some hd, next := some hd } := by
  simp [static_double_list.clear, setPrev, setNext]

theorem zero_header_link_spec (k : Kernel) (hd n : Nat) (fuel : Nat)
    (hz : k.mem hd = { prev := none, next := none }) (hn : n ≠ hd) :
    list_empty k.mem hd = true ∧
    Wf (top_threads_list.link k hd n).mem hd [n] ∧
    ((top_threads_list.link k hd n).mem hd).prev.isSome ∧
    ((top_threads_list.link k hd n).mem hd).next.isSome ∧
    Wf (ready_threads_list.link fuel k hd n).mem hd [n] ∧
    (ready_threads_list.link fuel k hd n).sstate n = TState.ready ∧
    Wf (terminated_threads_list.link k hd n).mem hd [n] := by
  have hzp : (k.mem hd).prev = none := by rw [hz]
  have hemp : list_empty k.mem hd = true := by simp [list_empty, hz]
  have htl : list_tail (static_double_list.clear k.mem hd) hd = some hd := by
    simp [list_tail, clear_header]
  have hemp0 : list_empty (static_double_list.clear k.mem hd) hd = true := by
    simp [list_empty, clear_header]
  have hwfi := Wf_insert_head n (Wf_clear k.mem hd) (by simp [hn])
  have htopmem : (top_threads_list.link k hd n).mem
      = static_double_list.insert_after (static_double_list.clear k.mem hd) n hd := by
    simp only [top_threads_list.link, hzp, if_true]
    rw [htl]
    rfl
  have htermmem : (terminated_threads_list.link k hd n).mem
      = static_double_list.insert_after (static_double_list.clear k.mem hd) n hd := by
    simp only [terminated_threads_list.link, hzp, if_true]
    rw [htl]
    rfl
  have hreadymem : (ready_threads_list.link fuel k hd n).mem
      = static_double_list.insert_after (static_double_list.clear k.mem hd) n hd := by
    simp only [ready_threads_list.link, hzp, if_true]
    rw [htl, hemp0]
    simp only [Option.getD_some, Bool.true_or, if_true]
  refine ⟨hemp, ?_, ?_, ?_, ?_, ?_, ?_⟩
  · rw [htopmem]
    simpa using hwfi
  · rw [htopmem]
    have h1 := Wf_prev_hd (show Wf _ hd [n] by simpa using hwfi)
    rw [h1]
    rfl
  · rw [htopmem]
    have h1 := Wf_next_hd (show Wf _ hd [n] by simpa using hwfi)
    rw [h1]
    rfl
  · rw [hreadymem]
    simpa using hwfi
  · simp [ready_threads_list.link, Function.update]
  · rw [htermmem]
    simpa using hwfi

theorem check_timestamp_spec (loopFuel linkFuel now : Nat) (k : Kernel) (hd : Nat)
    (xs : List Nat) (hwf : Wf k.mem hd xs)
    (hkind : ∀ x ∈ xs, k.kind x = NodeKind.timeoutNode)
    (hfl : xs.length + 1 ≤ loopFuel) :
    ∃ k', clock_timestamps_list.check_timestamp loopFuel linkFuel k hd now
        = (k', (xs.takeWhile (fun x => decide (k.stamp x ≤ now))).map
            (fun x => (x, k.stamp x))) ∧
      Wf k'.mem hd (xs.dropWhile (fun x => decide (k.stamp x ≤ now))) ∧
      k'.stamp = k.stamp := by
  have hnext := Wf_next_hd hwf
  obtain ⟨k', hgo, hwf', hst, h3, h4, h5⟩ :=
    check_timestamp_go_spec linkFuel hd now xs k [] loopFuel hwf hkind hfl
  refine ⟨k', ?_, hwf', hst⟩
  simp only [clock_timestamps_list.check_timestamp, hnext]
  rw [if_neg (by simp)]
  simpa using hgo

theorem insert_afterChecked_eq (m : Heap) (node after : Nat)
    (h : (setPrev m node (some after) after).next ≠ none) :
    insert_afterChecked m node after
      = some (static_double_list.insert_after m node after) := by
  simp only [insert_afterChecked, static_double_list.insert_after]
  cases h2 : (setPrev m node (some after) after).next with
  | none => exact absurd h2 h
  | some an => rfl

theorem setPrev_next_ne (m : Heap) (node after : Nat) (hne : after ≠ node)
    (h : (m after).next ≠ none) :
    (setPrev m node (some after) after).next ≠ none := by
  simp [setPrev, hne, h]

theorem Wf_mem_next_some {m : Heap} {hd : Nat} {xs : List Nat} (hwf : Wf m hd xs) :
    ∀ y ∈ hd :: xs, (m y).next ≠ none := by
  intro y hy
  rcases List.mem_cons.1 hy with rfl | hyx
  · rw [Wf_next_hd hwf]
    simp
  · obtain ⟨s, hs, _⟩ := Wf_neighbor_next hwf y hyx
    rw [hs]
    simp

theorem walkBackChecked_eq (m : Heap) (cond : Nat → Bool) (y : Nat) :
    ∀ (zs : List Nat) (fuel start : Nat), (y :: zs).getLast? = some start →
    prevChainB m ((y :: zs) : List Nat) = true →
    cond y = false → (∀ z ∈ zs, cond z = true) → zs.length + 1 ≤ fuel →
    walkBackChecked m cond start fuel = some y := by
  intro zs
  induction zs using List.reverseRecOn with
  | nil =>
    intro fuel start hstart hpc hy hzs hf
    have hsy : start = y := by simpa using hstart.symm
    subst hsy
    obtain ⟨f, rfl⟩ : ∃ f, fuel = f + 1 := by
      cases fuel with
      | zero => omega
      | succ f => exact ⟨f, rfl⟩
    simp [walkBackChecked, hy]
  | append_singleton ws w ih =>
    intro fuel start hstart hpc hy hzs hf
    have hstart2 : ((y :: ws) ++ [w]).getLast? = some start := by
      rw [show (y :: ws) ++ [w] = y :: (ws ++ [w]) by simp]
      exact hstart
    have hsw : start = w :=
      (Option.some.inj ((List.getLast?_concat (y :: ws)).symm.trans hstart2)).symm
    obtain ⟨f, rfl⟩ : ∃ f, fuel = f + 1 := by
      cases fuel with
      | zero => simp at hf
      | succ f => exact ⟨f, rfl⟩
    have hcw : cond w = true := hzs w (by simp)
    have hplast := prevChainB_last (by
      rw [show (y :: ws) ++ [w] = y :: (ws ++ [w]) by simp]
      exact hpc)
    rw [hsw]
    simp only [walkBackChecked, hcw, if_true]
    rw [hplast.1]
    exact ih f ((y :: ws).getLast (List.cons_ne_nil y ws))
      (List.getLast?_eq_getLast _ _) hplast.2 hy
      (fun z hz => hzs z (by simp [hz])) (by simp at hf; omega)

theorem getLastD_mem_cons (xs : List Nat) (hd : Nat) : xs.getLastD hd ∈ hd :: xs := by
  rcases List.eq_nil_or_concat xs with rfl | ⟨l, a, rfl⟩
  · simp
  · simp [List.getLastD_concat]

theorem waiting_link_empty_sentinel_independent (fuel : Nat) (k : Kernel) (hd n : Nat)
    (hwf : Wf k.mem hd []) (q : Nat) :
    (waiting_threads_list.link fuel { k with prio := Function.update k.prio hd q } hd n).mem
      = (waiting_threads_list.link fuel k hd n).mem := by
  have hprev : (k.mem hd).prev = some hd := by simpa using Wf_prev_hd hwf
  have hemp : list_empty k.mem hd = true := by simpa using Wf_list_empty hwf
  simp only [waiting_threads_list.link, list_tail, hprev, Option.getD_some, hemp,
    Bool.true_or, if_true]

theorem linkChecked_spec (fuel : Nat) (k : Kernel) (hd n : Nat) (xs : List Nat)
    (hwf : Wf k.mem hd xs) (hn : n ∉ hd :: xs)
    (hsort : xs.Pairwise (fun a b => k.prio b ≤ k.prio a))
    (hf : xs.length + 1 ≤ fuel) :
    waiting_threads_list.linkChecked fuel k hd n
      = some (waiting_threads_list.link fuel k hd n) := by
  have hprev := Wf_prev_hd hwf
  have hnhd : n ≠ hd := by
    intro h
    exact hn (by simp [h])
  have htlmem := getLastD_mem_cons xs hd
  have htln : xs.getLastD hd ≠ n := by
    intro h
    exact hn (h ▸ htlmem)
  have htlnext : (k.mem (xs.getLastD hd)).next ≠ none := Wf_mem_next_some hwf _ htlmem
  have hinsTl := insert_afterChecked_eq k.mem n (xs.getLastD hd)
    (setPrev_next_ne k.mem n _ htln htlnext)
  have hhdnext : (k.mem hd).next ≠ none := Wf_mem_next_some hwf hd (by simp)
  have hinsHd := insert_afterChecked_eq k.mem n hd
    (setPrev_next_ne k.mem n hd (fun h => hnhd h.symm) hhdnext)
  simp only [waiting_threads_list.linkChecked, waiting_threads_list.link, list_tail,
    list_head, hprev, Option.getD_some]
  by_cases hb1 : (list_empty k.mem hd
      || decide (sched_prio k n ≤ sched_prio k (xs.getLastD hd))) = true
  · rw [hb1]
    simp only [if_true, hinsTl]
    rfl
  · rw [Bool.not_eq_true] at hb1
    rw [hb1]
    simp only [if_false, Bool.false_eq_true]
    -- the list is not empty
    have hemp : list_empty k.mem hd = false := by
      rcases Bool.or_eq_false_iff.1 hb1 with ⟨h1, _⟩
      exact h1
    have hxs_ne : xs ≠ [] := by
      intro h
      rw [Wf_list_empty hwf, h] at hemp
      simp at hemp
    have hnext0 : (k.mem hd).next = some (xs.headD hd) := Wf_next_hd hwf
    simp only [hnext0, Option.getD_some]
    by_cases hb2 : (decide (sched_prio k n > sched_prio k (xs.headD hd))) = true
    · rw [hb2]
      simp only [if_true, hinsHd]
      rfl
    · rw [Bool.not_eq_true] at hb2
      rw [hb2]
      simp only [if_false, Bool.false_eq_true]
      -- middle branch: characterise the walk
      have hcondtl : decide (k.prio n > k.prio (xs.getLastD hd)) = true := by
        rcases Bool.or_eq_false_iff.1 hb1 with ⟨_, h2⟩
        simp only [sched_prio, decide_eq_false_iff_not, Nat.not_le] at h2
        simpa using h2
      have happ := List.takeWhile_append_dropWhile
        (fun y => !decide (k.prio n > k.prio y)) xs
      have hzs_all := dropWhile_gt_all k.prio (k.prio n) xs hsort
      have hys_all : ∀ y ∈ xs.takeWhile (fun y => !decide (k.prio n > k.prio y)),
          decide (k.prio n > k.prio y) = false := by
        intro y hy
        have h1 := List.mem_takeWhile_imp hy
        simpa using h1
      -- dropWhile is nonempty
      have hzs_ne : xs.dropWhile (fun y => !decide (k.prio n > k.prio y)) ≠ [] := by
        intro h
        have htlxs : xs.getLastD hd ∈ xs := by
          rcases List.eq_nil_or_concat xs with rfl | ⟨l, a, rfl⟩
          · exact absurd rfl hxs_ne
          · simp [List.getLastD_concat]
        have hteq : xs.takeWhile (fun y => !decide (k.prio n > k.prio y)) = xs := by
          conv_rhs => rw [← happ]
          rw [h, List.append_nil]
        have h2 : xs.getLastD hd ∈ xs.takeWhile (fun y => !decide (k.prio n > k.prio y)) := by
          rw [hteq]
          exact htlxs
        have h3 := hys_all _ h2
        rw [hcondtl] at h3
        simp at h3
      -- takeWhile is nonempty
      have hys_ne : xs.takeWhile (fun y => !decide (k.prio n > k.prio y)) ≠ [] := by
        obtain ⟨x0, xt, hx0⟩ : ∃ x0 xt, xs = x0 :: xt := by
          cases xs with
          | nil => exact absurd rfl hxs_ne
          | cons a t => exact ⟨a, t, rfl⟩
        have hhd0 : xs.headD hd = x0 := by rw [hx0]; rfl
        have hcond0 : decide (k.prio n > k.prio x0) = false := by
          have h9 := hb2
          simp only [sched_prio] at h9
          rw [hhd0] at h9
          exact h9
        intro h
        rw [hx0] at h
        rw [List.takeWhile_cons] at h
        rw [hcond0] at h
        simp at h
      obtain ⟨l, a, hys⟩ := (List.eq_nil_or_concat
        (xs.takeWhile (fun y => !decide (k.prio n > k.prio y)))).resolve_left hys_ne
      obtain ⟨t, z, hzs⟩ := (List.eq_nil_or_concat
        (xs.dropWhile (fun y => !decide (k.prio n > k.prio y)))).resolve_left hzs_ne
      rw [List.concat_eq_append] at hys hzs
      have hxs_split : xs = (l ++ [a]) ++ (t ++ [z]) := by
        rw [← happ, hys, hzs]
      have htl_z : xs.getLastD hd = z := by
        rw [hxs_split]
        exact getLastD_append_concat (l ++ [a]) t z hd
      -- the prev chain along a :: (t ++ [z])
      have hchain := prevChainB_of_linksOkB hwf.2
      have hpc : prevChainB k.mem (a :: (t ++ [z])) = true := by
        have hre : hd :: (xs ++ [hd]) = (hd :: l) ++ a :: ((t ++ [z]) ++ [hd]) := by
          rw [hxs_split]
          simp
        rw [hre, prevChainB_split k.mem (hd :: l) a ((t ++ [z]) ++ [hd]),
          Bool.and_eq_true] at hchain
        have h3 := hchain.2
        rw [show a :: ((t ++ [z]) ++ [hd]) = (a :: (t ++ [z])) ++ [hd] by simp] at h3
        exact (prevChainB_last h3).2
      have hca : decide (k.prio n > k.prio a) = false := by
        refine hys_all a ?_
        rw [hys]
        simp
      have hcz : ∀ w ∈ t ++ [z], decide (k.prio n > k.prio w) = true := by
        intro w hw
        refine hzs_all w ?_
        rw [hzs]
        exact hw
      have hstart : (a :: (t ++ [z])).getLast? = some z := by
        rw [show a :: (t ++ [z]) = (a :: t) ++ [z] by simp]
        exact List.getLast?_concat _
      have hlen : (t ++ [z]).length + 1 ≤ fuel := by
        have h8 : xs.length = (l ++ [a]).length + (t ++ [z]).length := by
          rw [hxs_split]
          simp
          omega
        simp only [List.length_append, List.length_cons, List.length_nil] at h8 ⊢
        omega
      have hwalkc : walkBackChecked k.mem
          (fun x => decide (sched_prio k n > sched_prio k x)) (xs.getLastD hd) fuel
          = some a := by
        rw [htl_z]
        exact walkBackChecked_eq k.mem _ a (t ++ [z]) fuel z hstart hpc hca hcz hlen
      have hwalk : walkBack k.mem
          (fun x => decide (sched_prio k n > sched_prio k x)) (xs.getLastD hd) fuel
          = a := by
        rw [htl_z]
        exact walkBack_eq k.mem _ a (t ++ [z]) fuel z hstart hpc hca hcz (by omega)
      simp only [hwalkc, hwalk]
      have hamem : a ∈ hd :: xs := by
        rw [hxs_split]
        simp
      have han : a ≠ n := by
        intro h
        exact hn (h ▸ hamem)
      have hanext : (k.mem a).next ≠ none := Wf_mem_next_some hwf a hamem
      have hinsA := insert_afterChecked_eq k.mem n a (setPrev_next_ne k.mem n a han hanext)
      simp only [hinsA]
      rfl

/-! ### The claims -/

/-- Claim C1: every wait list built by `waiting_threads_list::link` is in
nonincreasing priority order with FIFO ties, insertion following the
tail/head/backward-walk branch structure; concretely, priorities
`[5, 9, 5, 7, 9, 1]` yield head-to-tail priorities `[9, 9, 7, 5, 5, 1]`
with the first-linked 9 (node 2) before the second-linked 9 (node 5). -/
theorem wait_link_priority_order :
    (∀ (fuel hd : Nat) (k : Kernel) (ns : List Nat),
      Wf k.mem hd [] → ns.Nodup → hd ∉ ns → ns.length ≤ fuel →
      ∃ ys, Wf (waiting_link_all fuel hd ns k).mem hd ys ∧
        ys.Perm ns ∧
        ys.Pairwise (fun a b => k.prio b < k.prio a ∨
          (k.prio a = k.prio b ∧ [a, b].Sublist ns))) ∧
    toList (waiting_link_all 10 0 [1, 2, 3, 4, 5, 6] kS1).mem 0 10
      = [2, 5, 4, 1, 3, 6] ∧
    [2, 5, 4, 1, 3, 6].map kS1.prio = [9, 9, 7, 5, 5, 1] := by
  refine ⟨?_, by decide, by decide⟩
  intro fuel hd k ns hwf hnd hhd hfl
  obtain ⟨ys, h1, hp, h3, h4⟩ := waiting_link_all_spec fuel hd k.prio ns ns [] [] k rfl
    (by simp) hnd hhd hfl hwf (List.Perm.refl []) List.Pairwise.nil
  exact ⟨ys, h1, h3, h4⟩

theorem wait_link_priority_order_witness :
    ∃ ys, Wf (waiting_link_all 10 0 [1, 2, 3, 4, 5, 6] kS1).mem 0 ys ∧
      ys.Perm [1, 2, 3, 4, 5, 6] ∧
      ys.Pairwise (fun a b => kS1.prio b < kS1.prio a ∨
        (kS1.prio a = kS1.prio b ∧ [a, b].Sublist [1, 2, 3, 4, 5, 6])) :=
  wait_link_priority_order.1 10 0 kS1 [1, 2, 3, 4, 5, 6]
    (by decide) (by decide) (by decide) (by decide)

/-- Claim C2: `ready_threads_list::unlink_head` detaches the head, forces
its thread's state to `running` and returns it; linking A(3), B(7), C(7),
D(5) (nodes 1-4, all forced `ready` by `link`) makes successive calls
return B, C, D, A, each in state `running`. -/
theorem ready_dispatch :
    (∀ (k : Kernel) (hd x : Nat) (rest : List Nat),
      Wf k.mem hd (x :: rest) →
      (ready_threads_list.unlink_head k hd).2 = x ∧
      Wf (ready_threads_list.unlink_head k hd).1.mem hd rest ∧
      (ready_threads_list.unlink_head k hd).1.sstate x = TState.running) ∧
    (kS2u1.2 = 2 ∧ kS2u2.2 = 3 ∧ kS2u3.2 = 4 ∧ kS2u4.2 = 1) ∧
    (kS2r.sstate 1 = TState.ready ∧ kS2r.sstate 2 = TState.ready ∧
     kS2r.sstate 3 = TState.ready ∧ kS2r.sstate 4 = TState.ready) ∧
    (kS2u1.1.sstate 2 = TState.running ∧ kS2u2.1.sstate 3 = TState.running ∧
     kS2u3.1.sstate 4 = TState.running ∧ kS2u4.1.sstate 1 = TState.running) := by
  refine ⟨?_, by decide, by decide, by decide⟩
  intro k hd x rest hwf
  have h := unlink_head_spec hwf
  exact ⟨h.1, h.2.1, h.2.2.1⟩

theorem ready_dispatch_witness :
    (ready_threads_list.unlink_head kS2r 0).2 = 2 ∧
    Wf (ready_threads_list.unlink_head kS2r 0).1.mem 0 [3, 4, 1] ∧
    (ready_threads_list.unlink_head kS2r 0).1.sstate 2 = TState.running :=
  ready_dispatch.1 kS2r 0 2 [3, 4, 1] (by decide)

/-- Claim C3: on a queue built by `clock_timestamps_list::link`,
`check_timestamp t` fires exactly the nodes with timestamp `≤ t`, in
nondecreasing timestamp order with equal stamps in insertion order, and
leaves exactly the nodes with timestamp `> t`; concretely, after stamps
`[100, 50, 75, 50]` a check at 60 fires the two 50-nodes in insertion
order and a check at 200 then fires 75 before 100. -/
theorem check_timestamp_fires_due_prefix :
    (∀ (fuel hd : Nat) (k : Kernel) (ns : List Nat) (t : Nat),
      Wf k.mem hd [] → ns.Nodup → hd ∉ ns → ns.length ≤ fuel →
      (∀ x ∈ ns, k.kind x = NodeKind.timeoutNode) →
      ∃ (ys : List Nat) (k' : Kernel), ys.Perm ns ∧
        ys.Pairwise (fun a b => k.stamp a < k.stamp b ∨
          (k.stamp a = k.stamp b ∧ [a, b].Sublist ns)) ∧
        clock_timestamps_list.check_timestamp (ns.length + 1) fuel
            (clock_link_all fuel hd ns k) hd t
          = (k', (ys.takeWhile (fun x => decide (k.stamp x ≤ t))).map
              (fun x => (x, k.stamp x))) ∧
        Wf k'.mem hd (ys.dropWhile (fun x => decide (k.stamp x ≤ t))) ∧
        (∀ x ∈ ys.takeWhile (fun x => decide (k.stamp x ≤ t)), k.stamp x ≤ t) ∧
        (∀ x ∈ ys.dropWhile (fun x => decide (k.stamp x ≤ t)), t < k.stamp x) ∧
        ys.takeWhile (fun x => decide (k.stamp x ≤ t)) ++
          ys.dropWhile (fun x => decide (k.stamp x ≤ t)) = ys) ∧
    (rS3a.2 = [(2, 50), (4, 50)] ∧ toList rS3a.1.mem 0 10 = [3, 1] ∧
     rS3b.2 = [(3, 75), (1, 100)] ∧ toList rS3b.1.mem 0 10 = []) := by
  refine ⟨?_, by decide, by decide, by decide, by decide⟩
  intro fuel hd k ns t hwf hnd hhd hfl hkind
  obtain ⟨ys, hwfb, hst, hkd, hss, hperm, hpair⟩ :=
    clock_link_all_spec fuel hd k.stamp ns ns [] [] k rfl (by simp) hnd hhd hfl hwf
      (List.Perm.refl []) List.Pairwise.nil
  have hkind2 : ∀ x ∈ ys, (clock_link_all fuel hd ns k).kind x = NodeKind.timeoutNode := by
    intro x hx
    rw [hkd]
    exact hkind x (hperm.mem_iff.1 hx)
  have hlen : ys.length + 1 ≤ ns.length + 1 := by
    rw [hperm.length_eq]
  obtain ⟨k', hrun, hwf', hst'⟩ := check_timestamp_spec (ns.length + 1) fuel t
    (clock_link_all fuel hd ns k) hd ys hwfb hkind2 hlen
  rw [hst] at hrun hwf' hst'
  have hsorted : ys.Pairwise (fun a b => k.stamp a ≤ k.stamp b) := by
    refine hpair.imp ?_
    intro a b hab
    rcases hab with h | h
    · omega
    · omega
  refine ⟨ys, k', hperm, hpair, hrun, hwf', ?_, ?_, ?_⟩
  · intro x hx
    have h1 := List.mem_takeWhile_imp hx
    simpa using h1
  · intro x hx
    exact dropWhile_stamp_gt k.stamp t ys hsorted x hx
  · exact List.takeWhile_append_dropWhile _ _

theorem check_timestamp_fires_due_prefix_witness :
    ∃ (ys : List Nat) (k' : Kernel), ys.Perm [1, 2, 3, 4] ∧
      ys.Pairwise (fun a b => kS3.stamp a < kS3.stamp b ∨
        (kS3.stamp a = kS3.stamp b ∧ [a, b].Sublist [1, 2, 3, 4])) ∧
      clock_timestamps_list.check_timestamp 5 10 (clock_link_all 10 0 [1, 2, 3, 4] kS3) 0 60
        = (k', (ys.takeWhile (fun x => decide (kS3.stamp x ≤ 60))).map
            (fun x => (x, kS3.stamp x))) ∧
      Wf k'.mem 0 (ys.dropWhile (fun x => decide (kS3.stamp x ≤ 60))) ∧
      (∀ x ∈ ys.takeWhile (fun x => decide (kS3.stamp x ≤ 60)), kS3.stamp x ≤ 60) ∧
      (∀ x ∈ ys.dropWhile (fun x => decide (kS3.stamp x ≤ 60)), 60 < kS3.stamp x) ∧
      ys.takeWhile (fun x => decide (kS3.stamp x ≤ 60)) ++
        ys.dropWhile (fun x => decide (kS3.stamp x ≤ 60)) = ys :=
  check_timestamp_fires_due_prefix.1 10 0 kS3 [1, 2, 3, 4] 60
    (by decide) (by decide) (by decide) (by decide) (by decide)

/-- One firing of a lone timer node: the loop body of `check_timestamp`
re-reads the head after `action()`, so the node re-enqueued from within its
own `action()` is seen again with its bumped timestamp. -/
theorem single_timer_step (lf hd n p s now : Nat) (k : Kernel) (acc : List (Nat × Nat))
    (fuel : Nat) (hwf : Wf k.mem hd [n]) (hk : k.kind n = NodeKind.timerNode p)
    (hs : k.stamp n = s) (hnow : s ≤ now) :
    ∃ k', check_timestamp_go lf hd now (fuel + 1) k acc
        = check_timestamp_go lf hd now fuel k' ((n, s) :: acc) ∧
      Wf k'.mem hd [n] ∧ k'.stamp n = s + p ∧ k'.kind = k.kind := by
  have hemp : list_empty k.mem hd = false := by simpa using Wf_list_empty hwf
  have hhead : (list_head k.mem hd).getD hd = n := by
    rw [list_head, Wf_next_hd hwf]
    rfl
  have hnhd : n ≠ hd := by
    have := hwf.1
    simp only [List.nodup_cons, List.mem_singleton] at this
    exact fun h => this.1 h.symm
  -- the action: unlink, bump the stamp, re-link into the now-empty queue
  have hwfe : Wf (static_double_list_links.unlink k.mem n) hd [] :=
    (Wf_unlink (u := []) (v := []) (by simpa using hwf)).1
  have hact : ∃ k', node_action lf k hd n = k' ∧ Wf k'.mem hd [n] ∧
      k'.stamp n = s + p ∧ k'.kind = k.kind := by
    refine ⟨node_action lf k hd n, rfl, ?_, ?_, ?_⟩
    · simp only [node_action, hk, timer_node.action]
      have hlink := clock_link_refines lf
        { k with mem := static_double_list_links.unlink k.mem n,
                 stamp := Function.update k.stamp n (k.stamp n + p) }
        hd n [] [] (by simpa using hwfe) (by simp [hnhd]) (by simp) (by simp) (by simp)
      simpa using hlink
    · simp only [node_action, hk, timer_node.action]
      rw [(clock_link_fields lf
        { k with mem := static_double_list_links.unlink k.mem n,
                 stamp := Function.update k.stamp n (k.stamp n + p) } hd n).2.2.1]
      simp [Function.update, hs]
    · simp only [node_action, hk, timer_node.action]
      rfl
  obtain ⟨k', hk', hwf', hst', hkd'⟩ := hact
  refine ⟨k', ?_, hwf', hst', hkd'⟩
  simp only [check_timestamp_go, hemp, hhead, hs, Bool.false_eq_true, if_false]
  rw [if_pos hnow, hk']

/-- The loop of `check_timestamp` stops as soon as the head's timestamp
exceeds `now`. -/
theorem single_timer_stop (lf hd n now : Nat) (k : Kernel) (acc : List (Nat × Nat))
    (fuel : Nat) (hwf : Wf k.mem hd [n]) (hnow : now < k.stamp n) :
    check_timestamp_go lf hd now (fuel + 1) k acc = (k, acc.reverse) := by
  have hemp : list_empty k.mem hd = false := by simpa using Wf_list_empty hwf
  have hhead : (list_head k.mem hd).getD hd = n := by
    rw [list_head, Wf_next_hd hwf]
    rfl
  simp only [check_timestamp_go, hemp, hhead, Bool.false_eq_true, if_false]
  rw [if_neg (by omega)]

/-- Claim C4: `check_timestamp` tolerates re-enqueue from within `action()`
because the loop re-reads the head after every action; for the lone
periodic timer node 1 at timestamp 100 with period 50, one call
`check_timestamp 250` fires it at 100, 150, 200 and 250 in sequence, and
afterwards node 1 sits on the queue with timestamp 300. -/
theorem periodic_timer_reenqueue :
    ∃ k' : Kernel, clock_timestamps_list.check_timestamp 10 10 kS4q 0 250
      = (k', [(1, 100), (1, 150), (1, 200), (1, 250)]) ∧
      Wf k'.mem 0 [1] ∧ k'.stamp 1 = 300 := by
  have h0 : Wf kS4q.mem 0 [1] := by decide
  have hk0 : kS4q.kind 1 = NodeKind.timerNode 50 := by decide
  have hs0 : kS4q.stamp 1 = 100 := by decide
  obtain ⟨k1, e1, w1, s1, kk1⟩ :=
    single_timer_step 10 0 1 50 100 250 kS4q [] 9 h0 hk0 hs0 (by omega)
  obtain ⟨k2, e2, w2, s2, kk2⟩ :=
    single_timer_step 10 0 1 50 150 250 k1 [(1, 100)] 8 w1
      (by rw [kk1]; exact hk0) s1 (by omega)
  obtain ⟨k3, e3, w3, s3, kk3⟩ :=
    single_timer_step 10 0 1 50 200 250 k2 [(1, 150), (1, 100)] 7 w2
      (by rw [kk2, kk1]; exact hk0) s2 (by omega)
  obtain ⟨k4, e4, w4, s4, kk4⟩ :=
    single_timer_step 10 0 1 50 250 250 k3 [(1, 200), (1, 150), (1, 100)] 6 w3
      (by rw [kk3, kk2, kk1]; exact hk0) s3 (by omega)
  have e5 := single_timer_stop 10 0 1 250 k4 [(1, 250), (1, 200), (1, 150), (1, 100)] 5 w4
    (by rw [s4]; omega)
  refine ⟨k4, ?_, w4, by rw [s4]⟩
  have hnext : ¬ ((kS4q.mem 0).next = none) := by decide
  simp only [clock_timestamps_list.check_timestamp]
  rw [if_neg hnext]
  rw [show (10 : Nat) = 9 + 1 from rfl, e1]
  rw [show (9 : Nat) = 8 + 1 from rfl, e2]
  rw [show (8 : Nat) = 7 + 1 from rfl, e3]
  rw [show (7 : Nat) = 6 + 1 from rfl, e4]
  rw [show (6 : Nat) = 5 + 1 from rfl, e5]
  rfl

/-- A node whose `prev` pointer is present fails the detached-node debug
assertions of `insert_after`. -/
theorem assert_ok_of_prev (m : Heap) (n a : Nat) (h : (m n).prev ≠ none) :
    insert_after_assert_ok m n a = false := by
  simp only [insert_after_assert_ok]
  simp [h]

/-- Claim C5: `resume_one` on an empty wait list is a no-op; on a non-empty
list it always unlinks the head (the list shrinks by one regardless of the
thread's state) and records a resumption exactly when the captured head's
state is not `destroyed`; concretely, with the only waiter destroyed the
list ends empty and nothing is resumed. -/
theorem resume_one_spec :
    (∀ (k : Kernel) (hd : Nat), Wf k.mem hd [] →
      waiting_threads_list.resume_one k hd = k) ∧
    (∀ (k : Kernel) (hd x : Nat) (rest : List Nat), Wf k.mem hd (x :: rest) →
      Wf (waiting_threads_list.resume_one k hd).mem hd rest ∧
      (waiting_threads_list.resume_one k hd).sstate = k.sstate ∧
      (waiting_threads_list.resume_one k hd).resumed =
        (if k.sstate x ≠ TState.destroyed then k.resumed ++ [x] else k.resumed)) ∧
    (kS5q.sstate 1 = TState.destroyed ∧
     Wf (waiting_threads_list.resume_one kS5q 0).mem 0 [] ∧
     (waiting_threads_list.resume_one kS5q 0).resumed = []) := by
  refine ⟨?_, ?_, by decide, by decide, by decide⟩
  · intro k hd hwf
    have hemp : list_empty k.mem hd = true := by simpa using Wf_list_empty hwf
    simp [waiting_threads_list.resume_one, hemp]
  · intro k hd x rest hwf
    exact resume_one_nonempty hwf

theorem resume_one_spec_witness :
    waiting_threads_list.resume_one kS5 0 = kS5 ∧
    (Wf (waiting_threads_list.resume_one kS5q 0).mem 0 [] ∧
     (waiting_threads_list.resume_one kS5q 0).sstate = kS5q.sstate ∧
     (waiting_threads_list.resume_one kS5q 0).resumed =
       (if kS5q.sstate 1 ≠ TState.destroyed then kS5q.resumed ++ [1] else kS5q.resumed)) :=
  ⟨resume_one_spec.1 kS5 0 (by decide),
   resume_one_spec.2.1 kS5q 0 1 [] (by decide)⟩

/-- Claim C6: a zero-initialised header reports empty, and the first `link`
promotes it to self-linked before inserting, so the first-ever `link` on a
static list succeeds: afterwards the list holds exactly the linked node and
both header fields are present, for the top-threads, ready and terminated
lists alike. -/
theorem static_zero_header_first_link (k : Kernel) (hd n fuel : Nat)
    (hz : k.mem hd = { prev := none, next := none }) (hn : n ≠ hd) :
    list_empty k.mem hd = true ∧
    Wf (top_threads_list.link k hd n).mem hd [n] ∧
    ((top_threads_list.link k hd n).mem hd).prev.isSome ∧
    ((top_threads_list.link k hd n).mem hd).next.isSome ∧
    Wf (ready_threads_list.link fuel k hd n).mem hd [n] ∧
    (ready_threads_list.link fuel k hd n).sstate n = TState.ready ∧
    Wf (terminated_threads_list.link k hd n).mem hd [n] :=
  zero_header_link_spec k hd n fuel hz hn

theorem static_zero_header_first_link_witness :
    list_empty k0.mem 0 = true ∧
    Wf (top_threads_list.link k0 0 1).mem 0 [1] ∧
    ((top_threads_list.link k0 0 1).mem 0).prev.isSome ∧
    ((top_threads_list.link k0 0 1).mem 0).next.isSome ∧
    Wf (ready_threads_list.link 10 k0 0 1).mem 0 [1] ∧
    (ready_threads_list.link 10 k0 0 1).sstate 1 = TState.ready ∧
    Wf (terminated_threads_list.link k0 0 1).mem 0 [1] :=
  static_zero_header_first_link k0 0 1 10 rfl (by decide)

/-- Claim C7: `unlink` on a detached node (both pointers absent) changes no
memory, hence `unlink` is idempotent on every node; on a node of a well
formed list it splices the neighbours together — the remaining nodes again
form a circular well formed list — and leaves the node with both pointers
absent. -/
theorem unlink_detached_noop_and_splice :
    (∀ (m : Heap) (x : Nat), (m x).prev = none → (m x).next = none →
      static_double_list_links.unlink m x = m) ∧
    (∀ (m : Heap) (x : Nat),
      static_double_list_links.unlink (static_double_list_links.unlink m x) x
        = static_double_list_links.unlink m x) ∧
    (∀ (m : Heap) (hd : Nat) (u v : List Nat) (x : Nat), Wf m hd (u ++ x :: v) →
      Wf (static_double_list_links.unlink m x) hd (u ++ v) ∧
      static_double_list_links.unlink m x x = { prev := none, next := none }) := by
  refine ⟨?_, unlink_idem, ?_⟩
  · intro m x _ hn
    exact unlink_detached m x hn
  · intro m hd u v x hwf
    exact Wf_unlink hwf

theorem unlink_detached_noop_and_splice_witness :
    static_double_list_links.unlink k0.mem 5 = k0.mem ∧
    static_double_list_links.unlink (static_double_list_links.unlink kS5q.mem 1) 1
      = static_double_list_links.unlink kS5q.mem 1 ∧
    (Wf (static_double_list_links.unlink kS5q.mem 1) 0 [] ∧
     static_double_list_links.unlink kS5q.mem 1 1 = { prev := none, next := none }) :=
  ⟨unlink_detached_noop_and_splice.1 k0.mem 5 rfl rfl,
   unlink_detached_noop_and_splice.2.1 kS5q.mem 1,
   unlink_detached_noop_and_splice.2.2 kS5q.mem 0 [] [] 1 (by decide)⟩

/-- Claim C8, counterexample: on the reachable one-node list `mC8`
(size 1), following `next` from the header does not return to the header in
`size` steps — one step reaches node 1, not the header; the header returns
only after `size + 1` steps. -/
theorem list_invariant_size_steps_counterexample :
    Reach 0 mC8 [1] ∧
    ([1] : List Nat).length = 1 ∧
    iterNext mC8 1 0 = some 1 ∧
    iterNext mC8 1 0 ≠ some 0 ∧
    iterNext mC8 2 0 = some 0 := by
  refine ⟨Reach.insHead 1 (Reach.init k0.mem) (by decide), rfl, by decide, by decide,
    by decide⟩

/-- Claim C8, amended: after any sequence of well formed `insert_after` and
`unlink` operations on an initialised list (the `Reach` states), the
invariant holds: following `next` from the header first returns to the
header in exactly `size + 1` steps — it visits the `size` nodes and then
the header, never earlier — likewise backward via `prev`, and every node on
the list satisfies the neighbour equations `node.next.prev == node` and
`node.prev.next == node`. -/
theorem list_invariant_reachable {hd : Nat} {m : Heap} {xs : List Nat}
    (h : Reach hd m xs) :
    Wf m hd xs ∧
    iterNext m (xs.length + 1) hd = some hd ∧
    (∀ j, 0 < j → j ≤ xs.length → iterNext m j hd ≠ some hd) ∧
    iterPrev m (xs.length + 1) hd = some hd ∧
    (∀ j, 0 < j → j ≤ xs.length → iterPrev m j hd ≠ some hd) ∧
    (∀ x ∈ xs, ∃ s, (m x).next = some s ∧ (m s).prev = some x) ∧
    (∀ x ∈ xs, ∃ q, (m x).prev = some q ∧ (m q).next = some x) := by
  have hwf := Reach_Wf h
  have h1 := Wf_cycle_steps hwf
  have h2 := Wf_cycle_steps_prev hwf
  exact ⟨hwf, h1.1, h1.2, h2.1, h2.2, Wf_neighbor_next hwf, Wf_neighbor_prev hwf⟩

theorem list_invariant_reachable_witness :
    Wf mC8 0 [1] ∧
    iterNext mC8 (([1] : List Nat).length + 1) 0 = some 0 ∧
    (∀ j, 0 < j → j ≤ ([1] : List Nat).length → iterNext mC8 j 0 ≠ some 0) ∧
    iterPrev mC8 (([1] : List Nat).length + 1) 0 = some 0 ∧
    (∀ j, 0 < j → j ≤ ([1] : List Nat).length → iterPrev mC8 j 0 ≠ some 0) ∧
    (∀ x ∈ ([1] : List Nat), ∃ s, (mC8 x).next = some s ∧ (mC8 s).prev = some x) ∧
    (∀ x ∈ ([1] : List Nat), ∃ q, (mC8 x).prev = some q ∧ (mC8 q).next = some x) :=
  list_invariant_reachable (Reach.insHead 1 (Reach.init k0.mem) (by decide))

/-- Claim C9: both hierarchy `link`s insert the same embedded node, so after
a thread's node is linked into either the top-threads list or a children
list, a second `insert_after` of that node — whatever the anchor — fails
the detached-node debug assertions (`prev` is no longer null). -/
theorem double_hierarchy_link_asserts (k : Kernel) (hd n a : Nat) :
    insert_after_assert_ok (top_threads_list.link k hd n).mem n a = false ∧
    insert_after_assert_ok (thread_children_list.link k hd n).mem n a = false := by
  constructor
  · exact assert_ok_of_prev _ n a (insert_after_prev_some _ n _)
  · exact assert_ok_of_prev _ n a (insert_after_prev_some _ n _)

/-- Claim C10: `waiting_threads_list::link` has no zero-header check — on a
zero-initialised header its very first dereference (`tail()`) is of a null
pointer, so the checked embedding returns `none`; under the precondition
that the header is constructed (a well formed list) every dereference is of
a present pointer and the checked embedding agrees with the unchecked one;
and on an empty list the short-circuit `empty()` test keeps the header
sentinel's priority from being read — the result does not depend on it. -/
theorem wait_link_header_precondition :
    (∀ (fuel : Nat) (k : Kernel) (hd n : Nat),
      (k.mem hd).prev = none →
      waiting_threads_list.linkChecked fuel k hd n = none) ∧
    (∀ (fuel : Nat) (k : Kernel) (hd n : Nat) (xs : List Nat),
      Wf k.mem hd xs → n ∉ hd :: xs →
      xs.Pairwise (fun a b => k.prio b ≤ k.prio a) → xs.length + 1 ≤ fuel →
      waiting_threads_list.linkChecked fuel k hd n
        = some (waiting_threads_list.link fuel k hd n)) ∧
    (∀ (fuel : Nat) (k : Kernel) (hd n q : Nat), Wf k.mem hd [] →
      (waiting_threads_list.link fuel
          { k with prio := Function.update k.prio hd q } hd n).mem
        = (waiting_threads_list.link fuel k hd n).mem) := by
  refine ⟨?_, ?_, ?_⟩
  · intro fuel k hd n hz
    simp [waiting_threads_list.linkChecked, hz]
  · intro fuel k hd n xs hwf hn hsort hf
    exact linkChecked_spec fuel k hd n xs hwf hn hsort hf
  · intro fuel k hd n q hwf
    exact waiting_link_empty_sentinel_independent fuel k hd n hwf q

theorem wait_link_header_precondition_witness :
    waiting_threads_list.linkChecked 10 k0 0 1 = none ∧
    waiting_threads_list.linkChecked 10 kS5 0 1
      = some (waiting_threads_list.link 10 kS5 0 1) ∧
    (waiting_threads_list.link 10 { kS5 with prio := Function.update kS5.prio 0 7 } 0 1).mem
      = (waiting_threads_list.link 10 kS5 0 1).mem :=
  ⟨wait_link_header_precondition.1 10 k0 0 1 rfl,
   wait_link_header_precondition.2.1 10 kS5 0 1 [] (by decide) (by decide)
     List.Pairwise.nil (by decide),
   wait_link_header_precondition.2.2 10 kS5 0 1 7 (by decide)⟩

end MicroOs
